import Mathlib

/-!
Verification of the tool-call orchestration core of the cloud-compliance
MCP client (`mcp-client/mcp_client.py` and `mcp-client/mcp_client_flask.py`).

Python strings are modelled as `List Char` (one entry per code point).
`str.strip()` is modelled over the ASCII whitespace characters
(space, tab, `\n`, `\r`, `\x0b`, `\x0c`); the claims under study only
exercise ASCII whitespace.  `json.loads` is modelled by a recursive-descent
parser over the JSON grammar with integral numbers (floats, `NaN` and
`Infinity` payloads are out of scope of every claim; on such inputs the
model rejects where CPython would build a float).  `json.dumps`-style
encoding (`jsonEncode` below) produces the compact single-line form with
all control characters escaped, as the round-trip claim requires.
-/

/-- Convert a Lean string literal to the `List Char` model of a Python str. -/
def lc (s : String) : List Char := s.data

/-- The apostrophe character (used by the follow-up prompt f-string). -/
def apos : Char := Char.ofNat 39

/-- Characters stripped by Python `str.strip()` (ASCII fragment). -/
def pyIsSpace (c : Char) : Bool :=
  c.toNat = 32 || c.toNat = 9 || c.toNat = 10 || c.toNat = 13 ||
  c.toNat = 11 || c.toNat = 12

/-- JSON whitespace as skipped by `json.loads` (space, tab, newline, return). -/
def jsonWs (c : Char) : Bool :=
  c.toNat = 32 || c.toNat = 9 || c.toNat = 10 || c.toNat = 13

/-- ASCII decimal digit. -/
def isDigitC (c : Char) : Bool := 48 ≤ c.toNat && c.toNat ≤ 57

/-- ASCII hexadecimal digit (both cases), as accepted after `\u`. -/
def isHexC (c : Char) : Bool :=
  (48 ≤ c.toNat && c.toNat ≤ 57) || (97 ≤ c.toNat && c.toNat ≤ 102) ||
  (65 ≤ c.toNat && c.toNat ≤ 70)

/-- Numeric value of a hexadecimal digit. -/
def hexVal (c : Char) : Nat :=
  if c.toNat ≤ 57 then c.toNat - 48
  else if c.toNat ≤ 70 then c.toNat - 55
  else c.toNat - 87

/-- The decimal digit character for `n < 10`. -/
def digitChar (n : Nat) : Char :=
  if n = 0 then '0' else if n = 1 then '1' else if n = 2 then '2'
  else if n = 3 then '3' else if n = 4 then '4' else if n = 5 then '5'
  else if n = 6 then '6' else if n = 7 then '7' else if n = 8 then '8'
  else '9'

/-- The lowercase hexadecimal digit character for `n < 16`
    (lowercase, as `json.dumps` emits in `\uXXXX` escapes). -/
def hexDig (n : Nat) : Char :=
  if n < 10 then digitChar n
  else if n = 10 then 'a' else if n = 11 then 'b' else if n = 12 then 'c'
  else if n = 13 then 'd' else if n = 14 then 'e' else 'f'

/-- Is `m` a prefix of the second list?  (Model of Python `str.startswith`,
    used to locate substring occurrences.) -/
def isPrefx : List Char → List Char → Bool
  | [], _ => true
  | _ :: _, [] => false
  | a :: as, b :: bs => a = b && isPrefx as bs

/-- Python `marker in s` (substring containment). -/
def containsSub (m : List Char) : List Char → Bool
  | [] => isPrefx m []
  | c :: cs => isPrefx m (c :: cs) || containsSub m cs

/-- Python `s.split(marker, 1)[1]`: the suffix after the first occurrence of
    `marker`; `[]` when the marker does not occur (that case is always guarded
    by a `containsSub` test in the modelled code). -/
def afterFirst (m : List Char) : List Char → List Char
  | [] => []
  | c :: cs => if isPrefx m (c :: cs) then (c :: cs).drop m.length else afterFirst m cs

/-- Python `s.strip()`: drop leading and trailing whitespace. -/
def pyStrip (s : List Char) : List Char :=
  (((s.dropWhile pyIsSpace).reverse).dropWhile pyIsSpace).reverse

/-- Python `s.split("\n", 1)[0]`: the text up to the first newline. -/
def firstLine (s : List Char) : List Char := s.takeWhile (fun c => !(c = '\n'))

/-- Python `sub.lower()` over ASCII. -/
def pyLower (s : List Char) : List Char := s.map Char.toLower

/-- The JSON values `json.loads` can produce, with numbers restricted to the
    integral ones (no claim exercises floats).  Python `dict`s are modelled as
    ordered key/value lists accessed with Python-dict insertion semantics. -/
inductive Json where
  | null
  | bool (b : Bool)
  | num (n : Int)
  | str (s : List Char)
  | arr (elems : List Json)
  | obj (members : List (List Char × Json))

instance : Inhabited Json := ⟨Json.null⟩

/-- Decimal digits of a natural number, most significant first; fuelled so the
    definition is structural (any `fuel ≥ n` yields the digits of `n`). -/
def natDigitsAux : Nat → Nat → List Char
  | 0, n => [digitChar n]
  | fuel + 1, n =>
    if n < 10 then [digitChar n]
    else natDigitsAux fuel (n / 10) ++ [digitChar (n % 10)]

/-- Decimal digits of a natural number, most significant first. -/
def natDigits (n : Nat) : List Char := natDigitsAux n n

/-- Compact decimal rendering of an integer. -/
def encInt (i : Int) : List Char :=
  if i < 0 then '-' :: natDigits i.natAbs else natDigits i.toNat

/-- JSON escape of one character, as `json.dumps` emits it: the two-character
    short escapes for quote, backslash and common control characters, `\u00XX`
    for the remaining control characters, the character itself otherwise. -/
def escChar (c : Char) : List Char :=
  if c = '"' then ['\\', '"']
  else if c = '\\' then ['\\', '\\']
  else if c = '\n' then ['\\', 'n']
  else if c = '\t' then ['\\', 't']
  else if c = '\r' then ['\\', 'r']
  else if c = '\x08' then ['\\', 'b']
  else if c = '\x0c' then ['\\', 'f']
  else if c.toNat < 32 then
    ['\\', 'u', '0', '0', hexDig (c.toNat / 16), hexDig (c.toNat % 16)]
  else [c]

/-- JSON escape of a whole string body. -/
def escList : List Char → List Char
  | [] => []
  | c :: cs => escChar c ++ escList cs

/-- JSON encoding of a string, quotes included. -/
def encStr (s : List Char) : List Char := '"' :: escList s ++ ['"']

mutual
/-- Compact single-line JSON encoding (the `jsonEncode` of the round-trip
    claim: `json.dumps(..., separators=(",", ":"))`). -/
def encV : Json → List Char
  | .null => lc "null"
  | .bool true => lc "true"
  | .bool false => lc "false"
  | .num i => encInt i
  | .str s => encStr s
  | .arr [] => lc "[]"
  | .arr (x :: xs) => '[' :: (encV x ++ encElems xs ++ [']'])
  | .obj [] => lc "\x7b\x7d"
  | .obj (p :: ps) => '\x7b' :: (encPair p ++ encMembers ps ++ ['\x7d'])
def encElems : List Json → List Char
  | [] => []
  | x :: xs => ',' :: (encV x ++ encElems xs)
def encPair : List Char × Json → List Char
  | (k, v) => encStr k ++ ':' :: encV v
def encMembers : List (List Char × Json) → List Char
  | [] => []
  | p :: ps => ',' :: (encPair p ++ encMembers ps)
end

/-- `jsonEncode` of the spec: the single-line encoder. -/
def jsonEncode : Json → List Char := encV

/-- Python-dict insertion: overwrite in place when the key is present,
    append otherwise. -/
def dictInsert (kvs : List (List Char × Json)) (k : List Char) (v : Json) :
    List (List Char × Json) :=
  if kvs.any (fun p => p.1 = k) then
    kvs.map (fun p => if p.1 = k then (k, v) else p)
  else kvs ++ [(k, v)]

/-- Strip JSON whitespace from the front (the `_w(s, idx).end()` steps of
    CPython's decoder). -/
def skipWs (s : List Char) : List Char := s.dropWhile jsonWs

/-- Attach a parsed leading character to a string-parse continuation. -/
def pcons (c : Char) : Option (List Char × List Char) → Option (List Char × List Char)
  | some (s, r) => some (c :: s, r)
  | none => none

/-- Parse a JSON string body after the opening quote, in strict mode:
    raw control characters are rejected, escapes are decoded. -/
def parseStr : List Char → Option (List Char × List Char)
  | [] => none
  | c :: cs =>
    if c = '"' then some ([], cs)
    else if c = '\\' then
      match cs with
      | [] => none
      | e :: cs2 =>
        if e = '"' then pcons '"' (parseStr cs2)
        else if e = '\\' then pcons '\\' (parseStr cs2)
        else if e = '/' then pcons '/' (parseStr cs2)
        else if e = 'b' then pcons '\x08' (parseStr cs2)
        else if e = 'f' then pcons '\x0c' (parseStr cs2)
        else if e = 'n' then pcons '\n' (parseStr cs2)
        else if e = 'r' then pcons '\r' (parseStr cs2)
        else if e = 't' then pcons '\t' (parseStr cs2)
        else if e = 'u' then
          match cs2 with
          | h1 :: h2 :: h3 :: h4 :: cs3 =>
            if isHexC h1 && isHexC h2 && isHexC h3 && isHexC h4 then
              pcons (Char.ofNat (((hexVal h1 * 16 + hexVal h2) * 16 + hexVal h3) * 16 + hexVal h4))
                (parseStr cs3)
            else none
          | _ => none
        else none
    else if c.toNat < 32 then none
    else pcons c (parseStr cs)

/-- Numeric value of a digit string (Python `int()` over the matched digits). -/
def digitsToNat (ds : List Char) : Nat :=
  ds.foldl (fun a c => 10 * a + (c.toNat - 48)) 0

/-- Parse the integer part of a JSON number: `0`, or a nonzero digit followed
    by digits (the `(?:0|[1-9]\d*)` part of CPython's NUMBER_RE). -/
def parseNatPart (s : List Char) : Option (Nat × List Char) :=
  match s with
  | [] => none
  | c :: rest =>
    if c = '0' then some (0, rest)
    else if isDigitC c then
      some (digitsToNat ((c :: rest).takeWhile isDigitC), (c :: rest).dropWhile isDigitC)
    else none

/-- Does the remainder start a fraction or exponent?  The model rejects there
    (CPython would build a float; no claim exercises that). -/
def floatStart : List Char → Bool
  | [] => false
  | c :: _ => c = '.' || c = 'e' || c = 'E'

/-- Parse a JSON number (integral fragment) from a non-whitespace position. -/
def parseNumFrom (s : List Char) : Option (Json × List Char) :=
  match s with
  | [] => none
  | c :: rest =>
    if c = '-' then
      match parseNatPart rest with
      | some (n, r) => if floatStart r then none else some (.num (-(n : Int)), r)
      | none => none
    else
      match parseNatPart s with
      | some (n, r) => if floatStart r then none else some (.num (n : Int), r)
      | none => none

/-- Consume the exact characters of `es` (the tails of `true`/`false`/`null`). -/
def expectChars : List Char → List Char → Option (List Char)
  | [], s => some s
  | _ :: _, [] => none
  | e :: es, c :: cs => if c = e then expectChars es cs else none

mutual
/-- One JSON value, fuelled recursive descent (model of CPython
    `json.scanner.py_make_scanner`'s `_scan_once`). -/
def parseVal : Nat → List Char → Option (Json × List Char)
  | 0, _ => none
  | fuel + 1, s =>
    match skipWs s with
    | [] => none
    | c :: cs =>
      if c = '\x7b' then
        match skipWs cs with
        | [] => none
        | c2 :: cs2 =>
          if c2 = '\x7d' then some (.obj [], cs2)
          else parseMembers fuel (c2 :: cs2) []
      else if c = '[' then
        match skipWs cs with
        | [] => none
        | c2 :: cs2 =>
          if c2 = ']' then some (.arr [], cs2)
          else parseElems fuel (c2 :: cs2) []
      else if c = '"' then
        match parseStr cs with
        | some (s1, r) => some (.str s1, r)
        | none => none
      else if c = 't' then
        match expectChars (lc "rue") cs with
        | some r => some (.bool true, r)
        | none => none
      else if c = 'f' then
        match expectChars (lc "alse") cs with
        | some r => some (.bool false, r)
        | none => none
      else if c = 'n' then
        match expectChars (lc "ull") cs with
        | some r => some (.null, r)
        | none => none
      else parseNumFrom (c :: cs)

/-- The members of a JSON object after at least one is known to follow. -/
def parseMembers : Nat → List Char → List (List Char × Json) →
    Option (Json × List Char)
  | 0, _, _ => none
  | fuel + 1, s, acc =>
    match skipWs s with
    | [] => none
    | c :: cs =>
      if c = '"' then
        match parseStr cs with
        | some (k, r1) =>
          match skipWs r1 with
          | [] => none
          | c2 :: r2 =>
            if c2 = ':' then
              match parseVal fuel r2 with
              | some (v, r3) =>
                match skipWs r3 with
                | [] => none
                | c3 :: r4 =>
                  if c3 = ',' then parseMembers fuel r4 (dictInsert acc k v)
                  else if c3 = '\x7d' then some (.obj (dictInsert acc k v), r4)
                  else none
              | none => none
            else none
        | none => none
      else none

/-- The elements of a JSON array after at least one is known to follow. -/
def parseElems : Nat → List Char → List Json → Option (Json × List Char)
  | 0, _, _ => none
  | fuel + 1, s, acc =>
    match parseVal fuel s with
    | some (v, r1) =>
      match skipWs r1 with
      | [] => none
      | c :: r2 =>
        if c = ',' then parseElems fuel r2 (acc ++ [v])
        else if c = ']' then some (.arr (acc ++ [v]), r2)
        else none
    | none => none
end

/-- Model of Python `json.loads`: parse one value, then require only
    whitespace to remain.  The fuel `length + 1` dominates the size of any
    value the input can denote. -/
def json_loads (s : List Char) : Option Json :=
  match parseVal (s.length + 1) s with
  | some (v, rest) => if skipWs rest = [] then some v else none
  | none => none

/-- The literal `"TOOL_CALL:"` marker. -/
def TOOLCALL : List Char := lc "TOOL_CALL:"

/-- `CloudComplianceClient.parse_tool_call` (identical in both source files):
    find the marker, strip the remainder, keep its first line, split it at the
    first `\x7b` into tool name and JSON argument text, and parse the latter;
    a missing brace means empty arguments, a JSON decode error means `None`. -/
def parse_tool_call (llm_response : List Char) : Option (List Char × Json) :=
  if containsSub TOOLCALL llm_response then
    let parts := pyStrip (afterFirst TOOLCALL llm_response)
    let tool_line := pyStrip (firstLine parts)
    if containsSub ['\x7b'] tool_line then
      let tool_name := pyStrip (tool_line.takeWhile (fun c => !(c = '\x7b')))
      let json_str := '\x7b' :: ((tool_line.dropWhile (fun c => !(c = '\x7b'))).drop 1)
      match json_loads json_str with
      | some arguments => some (tool_name, arguments)
      | none => none
    else some (tool_line, Json.obj [])
  else none

/-- A conversation message (`Message` dataclass of both source files). -/
structure Message where
  role : List Char
  content : List Char
deriving DecidableEq

/-- The metadata of one schema parameter (`param_info` dict): its `type` and
    `description` entries, each possibly absent (`dict.get` default applies). -/
structure ParamInfo where
  type? : Option (List Char)
  descr? : Option (List Char)

/-- An MCP tool `inputSchema`: the `properties` entry (an ordered name/info
    map, possibly absent) and the resolved `schema.get('required', [])` list. -/
structure InputSchema where
  properties? : Option (List (List Char × ParamInfo))
  required : List (List Char)

/-- An MCP tool descriptor as consumed by `format_tools_for_llm`:
    `inputSchema = none` models a missing or falsy `inputSchema` attribute. -/
structure Tool where
  name : List Char
  description : List Char
  inputSchema : Option InputSchema

/-- One `    - name (type) (required/optional): description` line of the
    parameter loop (lines 48-53 of `mcp_client.py`). -/
def paramLine (pname : List Char) (info : ParamInfo) (req : List (List Char)) :
    List Char :=
  lc "    - " ++ pname ++ lc " (" ++ info.type?.getD (lc "string") ++ lc ")" ++
  (if req.contains pname then lc " (required)" else lc " (optional)") ++
  lc ": " ++ info.descr?.getD [] ++ lc "\n"

/-- The text block appended for one tool by the body of the
    `for tool in tools` loop. -/
def toolBlock (t : Tool) : List Char :=
  (lc "- **" ++ t.name ++ lc "**: " ++ t.description ++ lc "\n") ++
  (match t.inputSchema with
   | some schema =>
     match schema.properties? with
     | some ps =>
       lc "  Parameters:\n" ++
       ps.foldl (fun acc p => acc ++ paramLine p.1 p.2 schema.required) []
     | none => []
   | none => []) ++
  lc "\n"

/-- The `tools_description +=` accumulation of `format_tools_for_llm`. -/
def formatToolsAux (acc : List Char) : List Tool → List Char
  | [] => acc
  | t :: ts => formatToolsAux (acc ++ toolBlock t) ts

/-- `CloudComplianceClient.format_tools_for_llm` (identical in both files). -/
def format_tools_for_llm (tools : List Tool) : List Char :=
  formatToolsAux (lc "Available tools:\n\n") tools

/-- The `content` attribute of a backend reply as the normalization code sees
    it: absent (or falsy), a Python list of parts (each contributing its
    `.text`), or some other value with its truthiness and its `str()` form. -/
inductive ReplyContent where
  | missing
  | parts (ps : List (List Char))
  | other (truthy : Bool) (strForm : List Char)

/-- A backend `call_tool` reply: its `content` attribute and its own
    `str(result)` rendering. -/
structure ToolReply where
  content : ReplyContent
  strForm : List Char

/-- `CloudComplianceClient.call_mcp_tool`: invoke the backend, normalize the
    reply (first part's text / `str(result.content)` / `str(result)`), and
    convert any exception into an `Error calling tool ...` string. -/
def call_mcp_tool (callTool : List Char → Json → Except (List Char) ToolReply)
    (tool_name : List Char) (arguments : Json) : List Char :=
  match callTool tool_name arguments with
  | .ok result =>
    match result.content with
    | .missing => result.strForm
    | .parts [] => result.strForm
    | .parts (p :: _) => p
    | .other truthy s => if truthy then s else result.strForm
  | .error e => lc "Error calling tool " ++ tool_name ++ lc ": " ++ e

/-- The message list assembled by `call_llm`: optional system message, the
    conversation history, then the current user message. -/
def buildMessages (system_prompt : List Char) (history : List Message)
    (user_message : List Char) : List Message :=
  (if system_prompt.isEmpty then [] else [⟨lc "system", system_prompt⟩]) ++
  history ++ [⟨lc "user", user_message⟩]

/-- `CloudComplianceClient.call_llm`: call `ollama.chat` on the assembled
    messages; a raised exception becomes an `Error calling LLM: ...` string. -/
def call_llm (chat : List Message → Except (List Char) (List Char))
    (history : List Message) (user_message system_prompt : List Char) : List Char :=
  match chat (buildMessages system_prompt history user_message) with
  | .ok content => content
  | .error e => lc "Error calling LLM: " ++ e

/-- The system prompt f-string built around `tools_info` (lines 141-152 of
    the Flask client; lines 152-163 of the console client are identical). -/
def systemPrompt (tools : List Tool) : List Char :=
  lc "You are a helpful cloud compliance assistant. You have access to tools that can check AWS cloud compliance and list resources.\n\n" ++
  format_tools_for_llm tools ++
  lc "\n\nWhen a user asks a question that requires using a tool, respond with:\nTOOL_CALL: tool_name \x7b\"param1\": \"value1\", \"param2\": \"value2\"\x7d\n\nFor example:\n- If asked to list S3 buckets: TOOL_CALL: list_s3_buckets \x7b\x7d\n- If asked to check compliance: TOOL_CALL: check_resource_compliance \x7b\"resourceType\": \"storage\", \"standard\": \"SOC2\"\x7d\n\nAfter receiving tool results, provide a helpful natural language explanation to the user."

/-- The follow-up prompt f-string quoting a tool name and its result. -/
def follow_up_prompt (tool_name tool_result : List Char) : List Char :=
  lc "The tool " ++ [apos] ++ tool_name ++ [apos] ++ lc " returned:\n" ++
  tool_result ++
  lc "\n\nPlease explain these results to the user in a helpful way."

/-- The two collaborators outside the orchestrator: `ollama.chat` and the MCP
    session's `call_tool`, each able to return normally or raise. -/
structure Oracles where
  chat : List Message → Except (List Char) (List Char)
  callTool : List Char → Json → Except (List Char) ToolReply

/-- `CloudComplianceClient.process_message` of the Flask client: one turn,
    returning the final answer and the updated conversation history. -/
def process_message (o : Oracles) (tools : List Tool) (history : List Message)
    (user_message : List Char) : List Char × List Message :=
  let system_prompt := systemPrompt tools
  let llm_response := call_llm o.chat history user_message system_prompt
  match parse_tool_call llm_response with
  | some (tool_name, arguments) =>
    let tool_result := call_mcp_tool o.callTool tool_name arguments
    let final_response :=
      call_llm o.chat history (follow_up_prompt tool_name tool_result) system_prompt
    (final_response,
     history ++ [⟨lc "user", user_message⟩, ⟨lc "assistant", final_response⟩])
  | none =>
    (llm_response,
     history ++ [⟨lc "user", user_message⟩, ⟨lc "assistant", llm_response⟩])

/-- What one pass of the console `while True` loop does with its input. -/
inductive IterOutcome where
  | halt
  | skip
  | answered (ans : List Char)

/-- The `exit`/`quit`/`bye` test of the console loop. -/
def isExitWord (s : List Char) : Bool :=
  s = lc "exit" || s = lc "quit" || s = lc "bye"

/-- One iteration of `CloudComplianceClient.chat_loop`'s conversation loop
    (lines 166-205 of `mcp_client.py`), given the raw console input: strip it,
    honour the exit words and the empty-input `continue`, otherwise run the
    decision/parse/tool/narration turn and append the user/assistant pair. -/
def chat_loop_iteration (o : Oracles) (system_prompt : List Char)
    (history : List Message) (raw : List Char) : IterOutcome × List Message :=
  let user_input := pyStrip raw
  if isExitWord (pyLower user_input) then (.halt, history)
  else if user_input.isEmpty then (.skip, history)
  else
    let llm_response := call_llm o.chat history user_input system_prompt
    match parse_tool_call llm_response with
    | some (tool_name, arguments) =>
      let tool_result := call_mcp_tool o.callTool tool_name arguments
      let final_response :=
        call_llm o.chat history (follow_up_prompt tool_name tool_result) system_prompt
      (.answered final_response,
       history ++ [⟨lc "user", user_input⟩, ⟨lc "assistant", final_response⟩])
    | none =>
      (.answered llm_response,
       history ++ [⟨lc "user", user_input⟩, ⟨lc "assistant", llm_response⟩])

/-- Lines 84-94 of `parse_tool_call` in isolation: what the parser does with
    a tool-call line once that line has been extracted. -/
def lineToolCall (tool_line : List Char) : Option (List Char × Json) :=
  if containsSub ['\x7b'] tool_line then
    let tool_name := pyStrip (tool_line.takeWhile (fun c => !(c = '\x7b')))
    let json_str := '\x7b' :: ((tool_line.dropWhile (fun c => !(c = '\x7b'))).drop 1)
    match json_loads json_str with
    | some arguments => some (tool_name, arguments)
    | none => none
  else some (tool_line, Json.obj [])

/-- The first line of the raw (unstripped) text after the marker — the line
    claim C6 says the parser operates on. -/
def firstLineAfterMarker (t : List Char) : List Char :=
  firstLine (afterFirst TOOLCALL t)

/-- Claim C6 as stated, following the spec's words: on marker-bearing inputs
    the parse result is a function of the first line of the text following
    the first marker occurrence (everything after that line's newline is
    discarded and cannot influence the result). -/
def claimC6Statement : Prop :=
  ∀ t1 t2 : List Char, containsSub TOOLCALL t1 = true →
    containsSub TOOLCALL t2 = true →
    firstLineAfterMarker t1 = firstLineAfterMarker t2 →
    parse_tool_call t1 = parse_tool_call t2

/-- Claim C5 as stated, following the spec's words: a successful reply is
    normalized to the first content part's text when the content is a
    non-empty list of parts, and to the reply's own string form otherwise. -/
def claimC5Statement : Prop :=
  ∀ (callTool : List Char → Json → Except (List Char) ToolReply)
    (n : List Char) (a : Json) (r : ToolReply), callTool n a = .ok r →
    call_mcp_tool callTool n a =
      (match r.content with
       | .parts (p :: _) => p
       | _ => r.strForm)

/-- A chat oracle that always answers with the same text. -/
def chatConst (resp : List Char) : List Message → Except (List Char) (List Char) :=
  fun _ => .ok resp

/-- A chat oracle that always raises. -/
def chatFail (e : List Char) : List Message → Except (List Char) (List Char) :=
  fun _ => .error e

/-- A backend reply with no usable `content` attribute. -/
def toolReplyMissing : ToolReply := ⟨.missing, lc "raw result"⟩

/-- A tool oracle that always returns `toolReplyMissing`. -/
def toolConst : List Char → Json → Except (List Char) ToolReply :=
  fun _ _ => .ok toolReplyMissing

/-- Concrete collaborators for witnesses: chat answers, tools answer. -/
def oracleOk : Oracles := ⟨chatConst (lc "hello there"), toolConst⟩

/-- Concrete collaborators for witnesses: chat always raises. -/
def oracleChatFail : Oracles := ⟨chatFail (lc "connection refused"), toolConst⟩

/-- First character class of the spec's tool-name regex `[A-Za-z_]`. -/
def isNameStart (c : Char) : Bool :=
  (65 ≤ c.toNat && c.toNat ≤ 90) || (97 ≤ c.toNat && c.toNat ≤ 122) || c.toNat = 95

/-- Continuation character class of the regex `[A-Za-z0-9_]`. -/
def isNameChar (c : Char) : Bool := isNameStart c || isDigitC c

/-- The spec's tool-name regex `[A-Za-z_][A-Za-z0-9_]*`, applied to the whole
    candidate name. -/
def isToolName : List Char → Bool
  | [] => false
  | c :: cs => isNameStart c && cs.all isNameChar

mutual
/-- Structural size of a JSON value (drives parser fuel accounting). -/
def jsize : Json → Nat
  | .null => 1
  | .bool _ => 1
  | .num _ => 1
  | .str _ => 1
  | .arr xs => 1 + jsizeL xs
  | .obj kvs => 1 + jsizeKL kvs
def jsizeL : List Json → Nat
  | [] => 0
  | x :: xs => 1 + jsize x + jsizeL xs
def jsizeKL : List (List Char × Json) → Nat
  | [] => 0
  | p :: kvs => 1 + jsize p.2 + jsizeKL kvs
end

/-- Is `k` absent from the keys of `kvs`? -/
def keyFresh (k : List Char) (kvs : List (List Char × Json)) : Bool :=
  kvs.all (fun p => !(p.1 = k))

/-- Are the keys of an ordered member list pairwise distinct?  (A Python dict
    cannot carry duplicate keys, so values denoting genuine argument mappings
    satisfy this.) -/
def keysNodup : List (List Char × Json) → Bool
  | [] => true
  | p :: kvs => keyFresh p.1 kvs && keysNodup kvs

mutual
/-- Well-formedness of a JSON value as the image of a Python value: every
    object node carries pairwise-distinct keys. -/
def jwf : Json → Bool
  | .null => true
  | .bool _ => true
  | .num _ => true
  | .str _ => true
  | .arr xs => jwfL xs
  | .obj kvs => keysNodup kvs && jwfKL kvs
def jwfL : List Json → Bool
  | [] => true
  | x :: xs => jwf x && jwfL xs
def jwfKL : List (List Char × Json) → Bool
  | [] => true
  | p :: kvs => jwf p.2 && jwfKL kvs
end

/-- The characters that may legally follow an encoded value inside a larger
    encoding (or the end of input): exactly the contexts the round-trip
    induction steps through. -/
def Bnd (rest : List Char) : Prop :=
  rest = [] ∨ ∃ c cs, rest = c :: cs ∧ (c = ',' ∨ c = ']' ∨ c = '\x7d')

/-! ### Generic character and list lemmas -/

/-- Characters are determined by their code points. -/
theorem charEqOfToNat {c d : Char} (h : c.toNat = d.toNat) : c = d :=
  Char.ext (UInt32.ext h)

/-- A turn of `process_message` always appends exactly the user message and
    the returned answer, whatever the oracles do. -/
theorem process_message_commit (o : Oracles) (tools : List Tool)
    (h : List Message) (u : List Char) :
    (process_message o tools h u).2
      = h ++ [⟨lc "user", u⟩, ⟨lc "assistant", (process_message o tools h u).1⟩] := by
  unfold process_message
  cases hp : parse_tool_call (call_llm o.chat h u (systemPrompt tools)) with
  | none => simp [hp]
  | some x => cases x with
    | mk tn args => simp [hp]

/-- A guard-passing console iteration appends exactly the stripped input and
    the produced answer. -/
theorem chat_loop_iteration_commit (o : Oracles) (sp : List Char)
    (h : List Message) (raw : List Char) (hne : pyStrip raw ≠ [])
    (hex : isExitWord (pyLower (pyStrip raw)) = false) :
    ∃ ans, chat_loop_iteration o sp h raw
      = (.answered ans, h ++ [⟨lc "user", pyStrip raw⟩, ⟨lc "assistant", ans⟩]) := by
  have hemp : (pyStrip raw).isEmpty = false := by
    cases hs : pyStrip raw with
    | nil => exact absurd hs hne
    | cons a l => simp [List.isEmpty]
  unfold chat_loop_iteration
  cases hp : parse_tool_call (call_llm o.chat h (pyStrip raw) sp) with
  | none => exact ⟨call_llm o.chat h (pyStrip raw) sp, by simp [hex, hemp, hp]⟩
  | some x => cases x with
    | mk tn args =>
      exact ⟨call_llm o.chat h
        (follow_up_prompt tn (call_mcp_tool o.callTool tn args)) sp,
        by simp [hex, hemp, hp]⟩

/-! ### Claim C1: the turn commit invariant -/

/-- Claim C1: after one successful turn — a `process_message` call, or one
    guard-passing iteration of `chat_loop` — the conversation history grows by
    exactly two messages: the user message carrying the submitted utterance
    (for the console loop, the stripped console input, which is the utterance
    the turn processes), then the assistant message carrying the returned
    final answer; on the tool-call path and the direct-answer path alike. -/
theorem claim_C1 (o : Oracles) (tools : List Tool) (h : List Message)
    (u raw : List Char) (hne : pyStrip raw ≠ [])
    (hex : isExitWord (pyLower (pyStrip raw)) = false) :
    ((process_message o tools h u).2
        = h ++ [Message.mk (lc "user") u, Message.mk (lc "assistant") ((process_message o tools h u).1)]
      ∧ (process_message o tools h u).2.length = h.length + 2)
    ∧ ∃ ans, chat_loop_iteration o (systemPrompt tools) h raw
        = (.answered ans, h ++ [Message.mk (lc "user") (pyStrip raw), Message.mk (lc "assistant") ans])
      ∧ (h ++ [Message.mk (lc "user") (pyStrip raw), Message.mk (lc "assistant") ans]).length
          = h.length + 2 := by
  refine ⟨⟨process_message_commit o tools h u, ?_⟩, ?_⟩
  · rw [process_message_commit o tools h u]
    simp
  · obtain ⟨ans, hans⟩ := chat_loop_iteration_commit o (systemPrompt tools) h raw hne hex
    exact ⟨ans, hans, by simp⟩

/-- Witness for C1 at a concrete oracle, history and utterance. -/
theorem claim_C1_witness :
    ((process_message oracleOk [] [] (lc "list my buckets")).2
        = [] ++ [Message.mk (lc "user") (lc "list my buckets"),
            Message.mk (lc "assistant") ((process_message oracleOk [] [] (lc "list my buckets")).1)]
      ∧ (process_message oracleOk [] [] (lc "list my buckets")).2.length = ([] : List Message).length + 2)
    ∧ ∃ ans, chat_loop_iteration oracleOk (systemPrompt []) [] (lc " hi ")
        = (.answered ans, [] ++ [Message.mk (lc "user") (pyStrip (lc " hi ")), Message.mk (lc "assistant") ans])
      ∧ ([] ++ [Message.mk (lc "user") (pyStrip (lc " hi ")), Message.mk (lc "assistant") ans]).length
          = ([] : List Message).length + 2 :=
  claim_C1 oracleOk [] [] (lc "list my buckets") (lc " hi ") (by decide) (by decide)

/-! ### Claim C3: a failing decision call never escapes the turn -/

/-- Claim C3: when the underlying chat call raises on the decision messages,
    `call_llm` returns an error-description string instead of raising, the
    turn still completes and commits the user/assistant pair, and the
    caller-visible answer is that error string (direct path) or the narration
    built from the tool call parsed out of it (tool path). -/
theorem claim_C3 (o : Oracles) (tools : List Tool) (h : List Message)
    (u e : List Char)
    (hfail : o.chat (buildMessages (systemPrompt tools) h u) = .error e) :
    call_llm o.chat h u (systemPrompt tools) = lc "Error calling LLM: " ++ e
    ∧ (process_message o tools h u).2
        = h ++ [Message.mk (lc "user") u,
            Message.mk (lc "assistant") ((process_message o tools h u).1)]
    ∧ (parse_tool_call (lc "Error calling LLM: " ++ e) = none →
        (process_message o tools h u).1 = lc "Error calling LLM: " ++ e)
    ∧ (∀ nm args, parse_tool_call (lc "Error calling LLM: " ++ e) = some (nm, args) →
        (process_message o tools h u).1
          = call_llm o.chat h
              (follow_up_prompt nm (call_mcp_tool o.callTool nm args))
              (systemPrompt tools)) := by
  have hcl : call_llm o.chat h u (systemPrompt tools) = lc "Error calling LLM: " ++ e := by
    unfold call_llm
    rw [hfail]
  refine ⟨hcl, process_message_commit o tools h u, ?_, ?_⟩
  · intro hp
    simp only [process_message]
    rw [hcl, hp]
  · intro nm args hp
    simp only [process_message]
    rw [hcl, hp]

/-- Witness for C3: a concrete turn whose chat oracle always raises; the
    error string carries no marker, so it is the committed answer itself. -/
theorem claim_C3_witness :
    call_llm oracleChatFail.chat [] (lc "hi") (systemPrompt [])
        = lc "Error calling LLM: " ++ lc "connection refused"
    ∧ (process_message oracleChatFail [] [] (lc "hi")).2
        = [] ++ [Message.mk (lc "user") (lc "hi"),
            Message.mk (lc "assistant") ((process_message oracleChatFail [] [] (lc "hi")).1)]
    ∧ (parse_tool_call (lc "Error calling LLM: " ++ lc "connection refused") = none →
        (process_message oracleChatFail [] [] (lc "hi")).1
          = lc "Error calling LLM: " ++ lc "connection refused")
    ∧ (∀ nm args,
        parse_tool_call (lc "Error calling LLM: " ++ lc "connection refused") = some (nm, args) →
        (process_message oracleChatFail [] [] (lc "hi")).1
          = call_llm oracleChatFail.chat []
              (follow_up_prompt nm (call_mcp_tool oracleChatFail.callTool nm args))
              (systemPrompt [])) :=
  claim_C3 oracleChatFail [] [] (lc "hi") (lc "connection refused") rfl

/-! ### Claim C4: tool failures are normalized, never re-raised -/

/-- Claim C4: whenever the backend `call_tool` raises, `call_mcp_tool`
    returns the `Error calling tool <name>: <error>` text — which contains
    both the tool name and the error message as substrings — and in
    particular never re-raises: it is a total function into result text. -/
theorem claim_C4 (callTool : List Char → Json → Except (List Char) ToolReply)
    (n : List Char) (args : Json) (e : List Char)
    (hfail : callTool n args = .error e) :
    call_mcp_tool callTool n args = lc "Error calling tool " ++ n ++ lc ": " ++ e
    ∧ (∃ pre post, call_mcp_tool callTool n args = pre ++ n ++ post)
    ∧ (∃ pre, call_mcp_tool callTool n args = pre ++ e) := by
  have hres : call_mcp_tool callTool n args
      = lc "Error calling tool " ++ n ++ lc ": " ++ e := by
    unfold call_mcp_tool
    rw [hfail]
  refine ⟨hres, ⟨lc "Error calling tool ", lc ": " ++ e, ?_⟩,
    ⟨lc "Error calling tool " ++ n ++ lc ": ", ?_⟩⟩
  · rw [hres, List.append_assoc]
  · rw [hres]

/-- Witness for C4 at a concrete failing backend. -/
theorem claim_C4_witness :
    call_mcp_tool (fun _ _ => .error (lc "timeout")) (lc "list_s3_buckets") (Json.obj [])
        = lc "Error calling tool " ++ lc "list_s3_buckets" ++ lc ": " ++ lc "timeout"
    ∧ (∃ pre post,
        call_mcp_tool (fun _ _ => .error (lc "timeout")) (lc "list_s3_buckets") (Json.obj [])
          = pre ++ lc "list_s3_buckets" ++ post)
    ∧ (∃ pre,
        call_mcp_tool (fun _ _ => .error (lc "timeout")) (lc "list_s3_buckets") (Json.obj [])
          = pre ++ lc "timeout") :=
  claim_C4 (fun _ _ => .error (lc "timeout")) (lc "list_s3_buckets") (Json.obj [])
    (lc "timeout") rfl

/-! ### Claim C5: normalization of successful replies (corrected) -/

/-- Counterexample to C5 as stated: a reply whose `content` attribute is
    truthy but not a list is normalized to `str(result.content)`, not to the
    reply's own string form `str(result)` — exercised at a reply with content
    string form `inner` and reply string form `outer`. -/
theorem claim_C5_counterexample : ¬ claimC5Statement := by
  intro hcl
  have := hcl (fun _ _ => .ok ⟨.other true (lc "inner"), lc "outer"⟩)
    (lc "t") Json.null ⟨.other true (lc "inner"), lc "outer"⟩ rfl
  simp [call_mcp_tool, lc] at this

/-- Claim C5 as amended: a successful reply with a non-empty list of content
    parts yields the first part's text; a reply whose content is absent,
    falsy, or an empty list yields the reply's string form; a reply whose
    content is truthy but not a list yields the *content's* string form. -/
theorem claim_C5_amended
    (callTool : List Char → Json → Except (List Char) ToolReply)
    (n : List Char) (a : Json) (r : ToolReply) (hok : callTool n a = .ok r) :
    (∀ p ps, r.content = .parts (p :: ps) → call_mcp_tool callTool n a = p)
    ∧ (r.content = .missing → call_mcp_tool callTool n a = r.strForm)
    ∧ (r.content = .parts [] → call_mcp_tool callTool n a = r.strForm)
    ∧ (∀ b s, r.content = .other b s →
        call_mcp_tool callTool n a = if b then s else r.strForm) := by
  refine ⟨?_, ?_, ?_, ?_⟩
  · intro p ps hc
    simp [call_mcp_tool, hok, hc]
  · intro hc
    simp [call_mcp_tool, hok, hc]
  · intro hc
    simp [call_mcp_tool, hok, hc]
  · intro b s hc
    simp [call_mcp_tool, hok, hc]

/-- Witness for the amended C5 at a concrete two-part reply. -/
theorem claim_C5_witness :
    (∀ p ps,
      (ToolReply.mk (.parts [lc "first", lc "second"]) (lc "whole")).content
          = .parts (p :: ps) →
      call_mcp_tool (fun _ _ => .ok ⟨.parts [lc "first", lc "second"], lc "whole"⟩)
        (lc "t") (Json.obj []) = p)
    ∧ ((ToolReply.mk (.parts [lc "first", lc "second"]) (lc "whole")).content
          = .missing →
      call_mcp_tool (fun _ _ => .ok ⟨.parts [lc "first", lc "second"], lc "whole"⟩)
        (lc "t") (Json.obj [])
        = (ToolReply.mk (.parts [lc "first", lc "second"]) (lc "whole")).strForm)
    ∧ ((ToolReply.mk (.parts [lc "first", lc "second"]) (lc "whole")).content
          = .parts [] →
      call_mcp_tool (fun _ _ => .ok ⟨.parts [lc "first", lc "second"], lc "whole"⟩)
        (lc "t") (Json.obj [])
        = (ToolReply.mk (.parts [lc "first", lc "second"]) (lc "whole")).strForm)
    ∧ (∀ b s,
      (ToolReply.mk (.parts [lc "first", lc "second"]) (lc "whole")).content
          = .other b s →
      call_mcp_tool (fun _ _ => .ok ⟨.parts [lc "first", lc "second"], lc "whole"⟩)
        (lc "t") (Json.obj [])
        = if b then s
          else (ToolReply.mk (.parts [lc "first", lc "second"]) (lc "whole")).strForm) :=
  claim_C5_amended (fun _ _ => .ok ⟨.parts [lc "first", lc "second"], lc "whole"⟩)
    (lc "t") (Json.obj []) ⟨.parts [lc "first", lc "second"], lc "whole"⟩ rfl

/-! ### Claim C9: the tool catalog rendering is a pure, order-preserving map -/

/-- The `+=` loop of `format_tools_for_llm` is append of the per-tool blocks
    in catalog order. -/
theorem formatToolsAux_eq (ts : List Tool) :
    ∀ acc, formatToolsAux acc ts = acc ++ (ts.map toolBlock).flatten := by
  induction ts with
  | nil => intro acc; simp [formatToolsAux]
  | cons t ts ih => intro acc; simp [formatToolsAux, ih]

/-- The inner parameter `+=` loop is append of the per-parameter lines in
    schema order. -/
theorem paramFold_eq (req : List (List Char)) (ps : List (List Char × ParamInfo)) :
    ∀ acc, ps.foldl (fun acc p => acc ++ paramLine p.1 p.2 req) acc
      = acc ++ (ps.map (fun p => paramLine p.1 p.2 req)).flatten := by
  induction ps with
  | nil => intro acc; simp
  | cons p ps ih => intro acc; simp [ih]

/-- Claim C9: `format_tools_for_llm` is a pure function of the descriptor
    sequence — equal inputs give byte-identical output — and its output is the
    header plus the per-tool blocks in input order, each parameter list kept in
    schema order, each parameter line showing the name, the type (defaulting
    to `string` when absent) and a required marker exactly when the name is in
    the schema's required list. -/
theorem claim_C9 (ts1 ts2 : List Tool) (heq : ts1 = ts2) :
    format_tools_for_llm ts1 = format_tools_for_llm ts2
    ∧ (∀ ts, format_tools_for_llm ts
        = lc "Available tools:\n\n" ++ (ts.map toolBlock).flatten)
    ∧ (∀ nm d req ps, toolBlock ⟨nm, d, some ⟨some ps, req⟩⟩
        = (lc "- **" ++ nm ++ lc "**: " ++ d ++ lc "\n")
          ++ (lc "  Parameters:\n"
              ++ (ps.map (fun p => paramLine p.1 p.2 req)).flatten)
          ++ lc "\n")
    ∧ (∀ pname descr req, req.contains pname = true →
        paramLine pname ⟨none, descr⟩ req
          = lc "    - " ++ pname ++ lc " (" ++ lc "string" ++ lc ")"
            ++ lc " (required)" ++ lc ": " ++ descr.getD [] ++ lc "\n")
    ∧ (∀ pname descr req, req.contains pname = false →
        paramLine pname ⟨none, descr⟩ req
          = lc "    - " ++ pname ++ lc " (" ++ lc "string" ++ lc ")"
            ++ lc " (optional)" ++ lc ": " ++ descr.getD [] ++ lc "\n") := by
  refine ⟨by rw [heq], ?_, ?_, ?_, ?_⟩
  · intro ts
    exact formatToolsAux_eq ts (lc "Available tools:\n\n")
  · intro nm d req ps
    simp [toolBlock, paramFold_eq]
  · intro pname descr req hreq
    have hm : pname ∈ req := by simpa using hreq
    simp [paramLine, hm]
  · intro pname descr req hreq
    have hm : pname ∉ req := by simpa using hreq
    simp [paramLine, hm]

/-- Witness for C9 at a concrete one-tool catalog. -/
theorem claim_C9_witness :
    format_tools_for_llm
        [⟨lc "check_resource_compliance", lc "Check compliance",
          some ⟨some [(lc "standard", ⟨some (lc "string"), some (lc "the standard")⟩)],
            [lc "standard"]⟩⟩]
      = format_tools_for_llm
        [⟨lc "check_resource_compliance", lc "Check compliance",
          some ⟨some [(lc "standard", ⟨some (lc "string"), some (lc "the standard")⟩)],
            [lc "standard"]⟩⟩]
    ∧ (∀ ts, format_tools_for_llm ts
        = lc "Available tools:\n\n" ++ (ts.map toolBlock).flatten)
    ∧ (∀ nm d req ps, toolBlock ⟨nm, d, some ⟨some ps, req⟩⟩
        = (lc "- **" ++ nm ++ lc "**: " ++ d ++ lc "\n")
          ++ (lc "  Parameters:\n"
              ++ (ps.map (fun p => paramLine p.1 p.2 req)).flatten)
          ++ lc "\n")
    ∧ (∀ pname descr req, req.contains pname = true →
        paramLine pname ⟨none, descr⟩ req
          = lc "    - " ++ pname ++ lc " (" ++ lc "string" ++ lc ")"
            ++ lc " (required)" ++ lc ": " ++ descr.getD [] ++ lc "\n")
    ∧ (∀ pname descr req, req.contains pname = false →
        paramLine pname ⟨none, descr⟩ req
          = lc "    - " ++ pname ++ lc " (" ++ lc "string" ++ lc ")"
            ++ lc " (optional)" ++ lc ": " ++ descr.getD [] ++ lc "\n") :=
  claim_C9 _ _ rfl

/-! ### Lemmas about the marker search and Python strip -/

/-- Every list is a prefix of itself extended. -/
theorem isPrefx_append (m r : List Char) : isPrefx m (m ++ r) = true := by
  induction m with
  | nil => rfl
  | cons a as ih => simp [isPrefx, ih]

/-- Splitting after a marker that sits at the front returns the tail. -/
theorem afterFirst_append (m r : List Char) : afterFirst m (m ++ r) = r := by
  cases m with
  | nil =>
    cases r with
    | nil => rfl
    | cons c cs => simp [afterFirst, isPrefx]
  | cons a as =>
    have hp : isPrefx (a :: as) (a :: (as ++ r)) = true := by
      simpa using isPrefx_append (a :: as) r
    have hd : (a :: (as ++ r)).drop (a :: as).length = r := by
      simp only [List.length_cons, List.drop_succ_cons]
      exact List.drop_left as r
    calc afterFirst (a :: as) ((a :: as) ++ r)
        = afterFirst (a :: as) (a :: (as ++ r)) := by rw [List.cons_append]
      _ = r := by
        simp only [afterFirst, hp]
        simp only [hd, if_true]

/-- A string starting with the marker contains it. -/
theorem containsSub_append (a : Char) (m r : List Char) :
    containsSub (a :: m) ((a :: m) ++ r) = true := by
  have hp : isPrefx (a :: m) (a :: (m ++ r)) = true := by
    simpa using isPrefx_append (a :: m) r
  simp [containsSub, hp]

/-- `dropWhile` keeps a list whose every element fails the predicate. -/
theorem dropWhile_all_false (p : Char → Bool) :
    ∀ l : List Char, (∀ x ∈ l, p x = false) → l.dropWhile p = l := by
  intro l h
  cases l with
  | nil => rfl
  | cons a as => simp [List.dropWhile_cons, h a (by simp)]

/-- `dropWhile` discards a block whose every element passes the predicate. -/
theorem dropWhile_all_true (p : Char → Bool) :
    ∀ l r : List Char, (∀ x ∈ l, p x = true) → (l ++ r).dropWhile p = r.dropWhile p := by
  intro l
  induction l with
  | nil => intro r _; rfl
  | cons a as ih =>
    intro r h
    simp only [List.cons_append, List.dropWhile_cons, h a (by simp)]
    exact ih r (fun x hx => h x (by simp [hx]))

/-- `takeWhile` keeps a block whose every element passes the predicate. -/
theorem takeWhile_all_true (p : Char → Bool) :
    ∀ l r : List Char, (∀ x ∈ l, p x = true) → (l ++ r).takeWhile p = l ++ r.takeWhile p := by
  intro l
  induction l with
  | nil => intro r _; rfl
  | cons a as ih =>
    intro r h
    simp only [List.cons_append, List.takeWhile_cons, h a (by simp)]
    rw [ih r (fun x hx => h x (by simp [hx]))]
    simp

/-- Stripping an all-whitespace string yields the empty string. -/
theorem pyStrip_all_ws (l : List Char) (h : ∀ x ∈ l, pyIsSpace x = true) :
    pyStrip l = [] := by
  unfold pyStrip
  have h1 : l.dropWhile pyIsSpace = [] := by
    have := dropWhile_all_true pyIsSpace l [] h
    simpa using this
  rw [h1]
  rfl

/-- Stripping does nothing to a string with non-whitespace first and last
    characters. -/
theorem pyStrip_core (c d : Char) (m : List Char) (hc : pyIsSpace c = false)
    (hd : pyIsSpace d = false) : pyStrip (c :: (m ++ [d])) = c :: (m ++ [d]) := by
  unfold pyStrip
  rw [List.dropWhile_cons]
  simp only [hc, Bool.false_eq_true, if_false]
  rw [show (c :: (m ++ [d])).reverse = d :: (m.reverse ++ [c]) by simp]
  rw [List.dropWhile_cons]
  simp only [hd, Bool.false_eq_true, if_false]
  simp

/-- Stripping a head-whitespace character strips the rest. -/
theorem pyStrip_cons_ws (c : Char) (l : List Char) (hc : pyIsSpace c = true) :
    pyStrip (c :: l) = pyStrip l := by
  unfold pyStrip
  rw [List.dropWhile_cons]
  simp [hc]

/-- Stripping an all-non-whitespace string followed by whitespace recovers
    the string. -/
theorem pyStrip_append_ws (n ws : List Char) (hne : n ≠ [])
    (h : ∀ x ∈ n, pyIsSpace x = false) (hws : ∀ x ∈ ws, pyIsSpace x = true) :
    pyStrip (n ++ ws) = n := by
  unfold pyStrip
  cases n with
  | nil => exact absurd rfl hne
  | cons a as =>
    rw [List.cons_append, List.dropWhile_cons]
    simp only [h a (by simp), Bool.false_eq_true, if_false]
    rw [show (a :: (as ++ ws)).reverse = ws.reverse ++ (as.reverse ++ [a]) by simp]
    rw [dropWhile_all_true pyIsSpace ws.reverse _ (fun x hx => hws x (by simpa using hx))]
    rw [dropWhile_all_false pyIsSpace _ (fun x hx => by
      rcases (by simpa using hx : x ∈ as ∨ x = a) with h1 | h1
      · exact h x (by simp [h1])
      · subst h1; exact h x (by simp))]
    simp

/-- On a marker-bearing input, `parse_tool_call` is exactly the line handler
    applied to the stripped first line of the stripped remainder. -/
theorem parse_eq_lineToolCall (t : List Char) (h : containsSub TOOLCALL t = true) :
    parse_tool_call t
      = lineToolCall (pyStrip (firstLine (pyStrip (afterFirst TOOLCALL t)))) := by
  simp only [parse_tool_call, lineToolCall, h, if_true]

/-! ### Claim C7: the parser is total and lenient -/

/-- Claim C7: `parse_tool_call` returns nothing on marker-free inputs,
    returns nothing when the text from the first brace on the tool-call line
    is not valid JSON, and is total — every input yields either nothing or
    some invocation, never an exception. -/
theorem claim_C7 :
    (∀ t, containsSub TOOLCALL t = false → parse_tool_call t = none)
    ∧ (∀ t, containsSub TOOLCALL t = true →
        containsSub ['\x7b'] (pyStrip (firstLine (pyStrip (afterFirst TOOLCALL t)))) = true →
        json_loads ('\x7b' ::
          (((pyStrip (firstLine (pyStrip (afterFirst TOOLCALL t)))).dropWhile
              (fun c => !(c = '\x7b'))).drop 1)) = none →
        parse_tool_call t = none)
    ∧ (∀ t, parse_tool_call t = none ∨ ∃ nm args, parse_tool_call t = some (nm, args)) := by
  refine ⟨?_, ?_, ?_⟩
  · intro t h
    simp [parse_tool_call, h]
  · intro t h hb hj
    rw [parse_eq_lineToolCall t h]
    simp only [lineToolCall, hb, if_true, hj]
  · intro t
    cases hp : parse_tool_call t with
    | none => exact Or.inl rfl
    | some x =>
      cases x with
      | mk nm args => exact Or.inr ⟨nm, args, rfl⟩

/-- Witness for C7: a marker-free input and the spec's malformed-JSON
    example both demonstrably parse to nothing. -/
theorem claim_C7_witness :
    parse_tool_call (lc "just a plain answer") = none
    ∧ parse_tool_call (lc "TOOL_CALL: foo \x7bnot json") = none :=
  ⟨claim_C7.1 (lc "just a plain answer") rfl,
   claim_C7.2.1 (lc "TOOL_CALL: foo \x7bnot json") rfl rfl rfl⟩

/-! ### Claim C8: the no-brace form gives the trimmed line and empty args -/

/-- Claim C8: when the tool-call line has no brace, the whole trimmed line is
    the tool name and the argument mapping is empty; in particular
    `TOOL_CALL: list_buckets` parses to `list_buckets` with no arguments. -/
theorem claim_C8 :
    (∀ t, containsSub TOOLCALL t = true →
      containsSub ['\x7b'] (pyStrip (firstLine (pyStrip (afterFirst TOOLCALL t)))) = false →
      parse_tool_call t
        = some (pyStrip (firstLine (pyStrip (afterFirst TOOLCALL t))), Json.obj []))
    ∧ parse_tool_call (lc "TOOL_CALL: list_buckets")
        = some (lc "list_buckets", Json.obj []) := by
  constructor
  · intro t h hb
    rw [parse_eq_lineToolCall t h]
    simp only [lineToolCall, hb, Bool.false_eq_true, if_false]
  · rfl

/-- Witness for C8 at a concrete brace-free invocation. -/
theorem claim_C8_witness :
    parse_tool_call (lc "TOOL_CALL: list_s3_buckets")
      = some (pyStrip (firstLine (pyStrip
          (afterFirst TOOLCALL (lc "TOOL_CALL: list_s3_buckets")))), Json.obj []) :=
  claim_C8.1 (lc "TOOL_CALL: list_s3_buckets") rfl rfl

/-! ### Claim C10: a bare marker parses to the empty tool name -/

/-- Claim C10: the marker followed only by whitespace (or nothing) does not
    parse to nothing — it yields the empty tool name with empty arguments,
    and a decision response of that shape makes the orchestrator forward a
    tool call with the empty name to the backend. -/
theorem claim_C10 (ws : List Char) (hws : ∀ x ∈ ws, pyIsSpace x = true) :
    parse_tool_call (TOOLCALL ++ ws) = some ([], Json.obj [])
    ∧ ∀ (o : Oracles) (tools : List Tool) (h : List Message) (u : List Char),
        o.chat (buildMessages (systemPrompt tools) h u) = .ok (TOOLCALL ++ ws) →
        (process_message o tools h u).1
          = call_llm o.chat h
              (follow_up_prompt [] (call_mcp_tool o.callTool [] (Json.obj [])))
              (systemPrompt tools) := by
  have hm : containsSub TOOLCALL (TOOLCALL ++ ws) = true := by
    rw [show TOOLCALL = 'T' :: lc "OOL_CALL:" from rfl]
    exact containsSub_append 'T' (lc "OOL_CALL:") ws
  have hparse : parse_tool_call (TOOLCALL ++ ws) = some ([], Json.obj []) := by
    rw [parse_eq_lineToolCall _ hm, afterFirst_append, pyStrip_all_ws ws hws]
    rfl
  refine ⟨hparse, ?_⟩
  intro o tools h u hchat
  have hcl : call_llm o.chat h u (systemPrompt tools) = TOOLCALL ++ ws := by
    unfold call_llm
    rw [hchat]
  simp only [process_message]
  rw [hcl, hparse]

/-- Witness for C10 with three spaces after the marker and a chat oracle that
    answers exactly that. -/
theorem claim_C10_witness :
    parse_tool_call (TOOLCALL ++ lc "   ") = some ([], Json.obj [])
    ∧ ∀ (o : Oracles) (tools : List Tool) (h : List Message) (u : List Char),
        o.chat (buildMessages (systemPrompt tools) h u) = .ok (TOOLCALL ++ lc "   ") →
        (process_message o tools h u).1
          = call_llm o.chat h
              (follow_up_prompt [] (call_mcp_tool o.callTool [] (Json.obj [])))
              (systemPrompt tools) :=
  claim_C10 (lc "   ") (by decide)

/-! ### Claim C6: which line the parser operates on (corrected) -/

/-- Counterexample to C6 as stated: the code strips the remainder *before*
    splitting off the first line, so text beyond the first newline after the
    marker can determine the parsed tool name.  `TOOL_CALL:\nfoo` and
    `TOOL_CALL:\nbar` share their (empty) first line after the marker yet
    parse to different invocations. -/
theorem claim_C6_counterexample : ¬ claimC6Statement := by
  intro hcl
  have h := hcl (lc "TOOL_CALL:\nfoo") (lc "TOOL_CALL:\nbar") rfl rfl rfl
  rw [show parse_tool_call (lc "TOOL_CALL:\nfoo") = some (lc "foo", Json.obj []) from rfl,
      show parse_tool_call (lc "TOOL_CALL:\nbar") = some (lc "bar", Json.obj []) from rfl] at h
  have h2 : lc "foo" = lc "bar" := by
    have := congrArg (fun x => (x.getD ([], Json.obj [])).1) h
    simpa using this
  exact absurd h2 (by decide)

/-- Claim C6 as amended: `parse_tool_call` operates on the first line of the
    whitespace-*stripped* remainder after the marker (leading whitespace,
    newlines included, is skipped first); from there a newline ends the
    invocation token, and the parse result depends on nothing else. -/
theorem claim_C6_amended (t : List Char) (h : containsSub TOOLCALL t = true) :
    parse_tool_call t
      = lineToolCall (pyStrip (firstLine (pyStrip (afterFirst TOOLCALL t))))
    ∧ (∀ t2, containsSub TOOLCALL t2 = true →
        firstLine (pyStrip (afterFirst TOOLCALL t))
          = firstLine (pyStrip (afterFirst TOOLCALL t2)) →
        parse_tool_call t = parse_tool_call t2) := by
  refine ⟨parse_eq_lineToolCall t h, ?_⟩
  intro t2 h2 heq
  rw [parse_eq_lineToolCall t h, parse_eq_lineToolCall t2 h2, heq]

/-- Witness for the amended C6: prose after the invocation line is discarded. -/
theorem claim_C6_witness :
    parse_tool_call (lc "TOOL_CALL: list_s3_buckets \x7b\x7d\nThis will list your buckets.")
      = lineToolCall (pyStrip (firstLine (pyStrip (afterFirst TOOLCALL
          (lc "TOOL_CALL: list_s3_buckets \x7b\x7d\nThis will list your buckets.")))))
    ∧ (∀ t2, containsSub TOOLCALL t2 = true →
        firstLine (pyStrip (afterFirst TOOLCALL
            (lc "TOOL_CALL: list_s3_buckets \x7b\x7d\nThis will list your buckets.")))
          = firstLine (pyStrip (afterFirst TOOLCALL t2)) →
        parse_tool_call (lc "TOOL_CALL: list_s3_buckets \x7b\x7d\nThis will list your buckets.")
          = parse_tool_call t2) :=
  claim_C6_amended (lc "TOOL_CALL: list_s3_buckets \x7b\x7d\nThis will list your buckets.") rfl

/-! ### Digit rendering lemmas -/

/-- Character inequality from distinct code points. -/
theorem ne_char_of_toNat {c e : Char} (h : ¬ c.toNat = e.toNat) : ¬ (c = e) :=
  fun he => h (he ▸ rfl)

/-- The code point of `digitChar n` for `n < 10`. -/
theorem digitChar_toNat : ∀ n, n < 10 → (digitChar n).toNat = 48 + n := by decide

/-- `digitChar n` is a digit for `n < 10`. -/
theorem digitChar_digit : ∀ n, n < 10 → isDigitC (digitChar n) = true := by decide

/-- `digitChar n` is not `0` for `0 < n < 10`. -/
theorem digitChar_ne_zero : ∀ n, n < 10 → n ≠ 0 → ¬ (digitChar n = '0') := by decide

/-- With enough fuel, a digit rendering starts with a digit character, which
    is nonzero when the number is, and all of it is digits. -/
theorem natDigitsAux_spec :
    ∀ fuel n, n ≤ fuel →
      (∃ d ds, natDigitsAux fuel n = d :: ds
        ∧ isDigitC d = true ∧ (n ≠ 0 → ¬ (d = '0')))
      ∧ (∀ c ∈ natDigitsAux fuel n, isDigitC c = true) := by
  intro fuel
  induction fuel with
  | zero =>
    intro n hn
    have hn0 : n = 0 := by omega
    subst hn0
    exact ⟨⟨'0', [], rfl, by decide, fun h => absurd rfl h⟩, by decide⟩
  | succ fuel ih =>
    intro n hn
    by_cases h10 : n < 10
    · refine ⟨⟨digitChar n, [], ?_, digitChar_digit n h10, digitChar_ne_zero n h10⟩, ?_⟩
      · simp [natDigitsAux, h10]
      · intro c hc
        simp [natDigitsAux, h10] at hc
        subst hc
        exact digitChar_digit n h10
    · have hdiv : n / 10 ≤ fuel := by
        have := Nat.div_lt_self (show 0 < n by omega) (show 1 < 10 by omega)
        omega
      obtain ⟨⟨d, ds, hd, hdig, hz⟩, hall⟩ := ih (n / 10) hdiv
      refine ⟨⟨d, ds ++ [digitChar (n % 10)], ?_, hdig, fun _ => hz (by omega)⟩, ?_⟩
      · simp [natDigitsAux, h10, hd]
      · intro c hc
        simp only [natDigitsAux, h10, if_false] at hc
        rcases List.mem_append.mp hc with h1 | h1
        · exact hall c h1
        · have : c = digitChar (n % 10) := by simpa using h1
          subst this
          exact digitChar_digit _ (by omega)

/-- Folding the digit rendering back through `digitsToNat` recovers the
    number. -/
theorem digitsToNat_natDigitsAux : ∀ fuel n, n ≤ fuel →
    digitsToNat (natDigitsAux fuel n) = n := by
  intro fuel
  induction fuel with
  | zero =>
    intro n hn
    have hn0 : n = 0 := by omega
    subst hn0
    decide
  | succ fuel ih =>
    intro n hn
    by_cases h10 : n < 10
    · simp only [natDigitsAux, h10, if_true]
      show digitsToNat [digitChar n] = n
      unfold digitsToNat
      simp [digitChar_toNat n h10]
    · have hdiv : n / 10 ≤ fuel := by
        have := Nat.div_lt_self (show 0 < n by omega) (show 1 < 10 by omega)
        omega
      simp only [natDigitsAux, h10, if_false]
      unfold digitsToNat
      rw [List.foldl_append]
      have hih := ih (n / 10) hdiv
      unfold digitsToNat at hih
      rw [hih]
      simp only [List.foldl_cons, List.foldl_nil]
      rw [digitChar_toNat (n % 10) (by omega)]
      omega

/-! ### Number parsing round trip -/

/-- What a boundary remainder guarantees to the number parser: its head (if
    any) is neither a digit nor a fraction/exponent starter. -/
theorem Bnd_num_facts (rest : List Char) (h : Bnd rest) :
    (∀ c cs, rest = c :: cs → isDigitC c = false) ∧ floatStart rest = false := by
  rcases h with h | ⟨c, cs, hrest, hc⟩
  · subst h
    exact ⟨(fun c cs h => by cases h), rfl⟩
  · subst hrest
    rcases hc with hc | hc | hc <;> subst hc <;>
      exact ⟨(fun c' cs' h => by cases h; decide), by simp [floatStart]⟩

/-- `parseNatPart` inverts the digit rendering when no digit follows. -/
theorem parseNatPart_digits (n : Nat) (rest : List Char)
    (hrest : ∀ c cs, rest = c :: cs → isDigitC c = false) :
    parseNatPart (natDigits n ++ rest) = some (n, rest) := by
  obtain ⟨⟨d, ds, hd0, hdig, hz⟩, hall0⟩ := natDigitsAux_spec n n le_rfl
  have hd : natDigits n = d :: ds := hd0
  have hall : ∀ c ∈ natDigits n, isDigitC c = true := hall0
  have htake : (natDigits n ++ rest).takeWhile isDigitC = natDigits n := by
    rw [takeWhile_all_true isDigitC (natDigits n) rest hall]
    cases hr : rest with
    | nil => simp
    | cons c cs => simp [List.takeWhile_cons, hrest c cs hr]
  have hdrop : (natDigits n ++ rest).dropWhile isDigitC = rest := by
    rw [dropWhile_all_true isDigitC (natDigits n) rest hall]
    cases hr : rest with
    | nil => rfl
    | cons c cs => simp [List.dropWhile_cons, hrest c cs hr]
  have hval : digitsToNat (natDigits n) = n := digitsToNat_natDigitsAux n n le_rfl
  by_cases hn0 : n = 0
  · subst hn0
    have h0 : natDigits 0 = ['0'] := rfl
    rw [h0]
    simp [parseNatPart]
  · rw [hd, List.cons_append]
    unfold parseNatPart
    simp only [hz hn0, Bool.false_eq_true, if_false, hdig, if_true]
    rw [← List.cons_append, ← hd, htake, hdrop, hval]

/-- `parseNumFrom` inverts the compact integer rendering at any boundary. -/
theorem parseNumFrom_encInt (i : Int) (rest : List Char) (hrest : Bnd rest) :
    parseNumFrom (encInt i ++ rest) = some (.num i, rest) := by
  obtain ⟨hnd, hfs⟩ := Bnd_num_facts rest hrest
  by_cases hneg : i < 0
  · have hi : (-(i.natAbs : Int)) = i := by omega
    simp only [encInt, hneg, if_true, List.cons_append]
    unfold parseNumFrom
    simp only [if_true]
    rw [parseNatPart_digits i.natAbs rest hnd]
    simp only [hfs, Bool.false_eq_true, if_false, hi]
  · have hi : ((i.toNat : Int)) = i := by omega
    simp only [encInt, hneg, if_false]
    obtain ⟨⟨d, ds, hd0, hdig, hz⟩, _⟩ := natDigitsAux_spec i.toNat i.toNat le_rfl
    have hd : natDigits i.toNat = d :: ds := hd0
    have hdm : ¬ (d = '-') := by
      apply ne_char_of_toNat
      have h1 : 48 ≤ d.toNat ∧ d.toNat ≤ 57 := by
        unfold isDigitC at hdig
        simpa using hdig
      have h2 : ('-').toNat = 45 := rfl
      omega
    rw [hd, List.cons_append]
    unfold parseNumFrom
    simp only [hdm, Bool.false_eq_true, if_false]
    rw [← List.cons_append, ← hd]
    rw [parseNatPart_digits i.toNat rest hnd]
    simp only [hfs, Bool.false_eq_true, if_false, hi]

/-! ### String escape round trip -/

/-- `hexVal` inverts `hexDig` on hex digits. -/
theorem hexDig_spec : ∀ n, n < 16 → isHexC (hexDig n) = true ∧ hexVal (hexDig n) = n := by
  decide

/-- `parseStr` inverts the escape of a string body up to its closing quote. -/
theorem parseStr_esc : ∀ (s rest : List Char),
    parseStr (escList s ++ '"' :: rest) = some (s, rest) := by
  intro s
  induction s with
  | nil =>
    intro rest
    rw [show escList [] = [] from rfl, List.nil_append]
    unfold parseStr
    simp
  | cons c cs ih =>
    intro rest
    rw [show escList (c :: cs) = escChar c ++ escList cs from rfl, List.append_assoc]
    by_cases h1 : c = '"'
    · subst h1
      rw [show escChar '"' = ['\\', '"'] from rfl]
      simp only [List.cons_append, List.nil_append]
      unfold parseStr
      simp [pcons, ih]
    by_cases h2 : c = '\\'
    · subst h2
      rw [show escChar '\\' = ['\\', '\\'] from rfl]
      simp only [List.cons_append, List.nil_append]
      unfold parseStr
      simp [pcons, ih]
    by_cases h3 : c = '\n'
    · subst h3
      rw [show escChar '\n' = ['\\', 'n'] from rfl]
      simp only [List.cons_append, List.nil_append]
      unfold parseStr
      simp [pcons, ih]
    by_cases h4 : c = '\t'
    · subst h4
      rw [show escChar '\t' = ['\\', 't'] from rfl]
      simp only [List.cons_append, List.nil_append]
      unfold parseStr
      simp [pcons, ih]
    by_cases h5 : c = '\r'
    · subst h5
      rw [show escChar '\r' = ['\\', 'r'] from rfl]
      simp only [List.cons_append, List.nil_append]
      unfold parseStr
      simp [pcons, ih]
    by_cases h6 : c = '\x08'
    · subst h6
      rw [show escChar '\x08' = ['\\', 'b'] from rfl]
      simp only [List.cons_append, List.nil_append]
      unfold parseStr
      simp [pcons, ih]
    by_cases h7 : c = '\x0c'
    · subst h7
      rw [show escChar '\x0c' = ['\\', 'f'] from rfl]
      simp only [List.cons_append, List.nil_append]
      unfold parseStr
      simp [pcons, ih]
    by_cases h8 : c.toNat < 32
    · have hhi : c.toNat / 16 < 16 := by omega
      have hlo : c.toNat % 16 < 16 := by omega
      obtain ⟨hhx1, hhv1⟩ := hexDig_spec _ hhi
      obtain ⟨hhx2, hhv2⟩ := hexDig_spec _ hlo
      have hesc : escChar c
          = ['\\', 'u', '0', '0', hexDig (c.toNat / 16), hexDig (c.toNat % 16)] := by
        simp [escChar, h1, h2, h3, h4, h5, h6, h7, h8]
      have hv : ((hexVal '0' * 16 + hexVal '0') * 16 + hexVal (hexDig (c.toNat / 16))) * 16
          + hexVal (hexDig (c.toNat % 16)) = c.toNat := by
        rw [hhv1, hhv2]
        have h0 : hexVal '0' = 0 := rfl
        rw [h0]
        omega
      rw [hesc]
      simp only [List.cons_append, List.nil_append]
      have h00 : isHexC '0' = true := by decide
      unfold parseStr
      simp [hhx1, hhx2, h00, hv, Char.ofNat_toNat, pcons, ih]
    · have hesc : escChar c = [c] := by
        simp [escChar, h1, h2, h3, h4, h5, h6, h7, h8]
      rw [hesc]
      simp only [List.singleton_append]
      unfold parseStr
      simp [h1, h2, h8, pcons, ih]

/-! ### Encoder shape and size lemmas -/

/-- `skipWs` is the identity on a non-whitespace head. -/
theorem skipWs_cons (c : Char) (l : List Char) (h : jsonWs c = false) :
    skipWs (c :: l) = c :: l := by
  simp [skipWs, List.dropWhile_cons, h]

/-- `expectChars` consumes exactly the expected characters. -/
theorem expectChars_append (es : List Char) : ∀ r, expectChars es (es ++ r) = some r := by
  induction es with
  | nil => intro r; rfl
  | cons e es ih => intro r; simp [expectChars, ih]

/-- Inserting a fresh key into a Python dict appends it. -/
theorem dictInsert_fresh (acc : List (List Char × Json)) (k : List Char) (v : Json)
    (h : keyFresh k acc = true) : dictInsert acc k v = acc ++ [(k, v)] := by
  unfold dictInsert
  have hany : acc.any (fun p => p.1 = k) = false := by
    unfold keyFresh at h
    rw [List.all_eq_true] at h
    rw [List.any_eq_false]
    intro p hp
    have := h p hp
    simpa using this
  simp [hany]

/-- Every JSON value is rendered with a head character that is neither
    whitespace nor a closing bracket. -/
theorem encV_head (v : Json) : ∃ c cs, encV v = c :: cs
    ∧ jsonWs c = false ∧ ¬ (c = ']') := by
  cases v with
  | null => exact ⟨'n', lc "ull", rfl, by decide, by decide⟩
  | bool b => cases b with
    | true => exact ⟨'t', lc "rue", rfl, by decide, by decide⟩
    | false => exact ⟨'f', lc "alse", rfl, by decide, by decide⟩
  | str s => exact ⟨'"', escList s ++ ['"'], rfl, by decide, by decide⟩
  | arr xs => cases xs with
    | nil => exact ⟨'[', [']'], rfl, by decide, by decide⟩
    | cons x xs => exact ⟨'[', encV x ++ encElems xs ++ [']'], rfl, by decide, by decide⟩
  | obj kvs => cases kvs with
    | nil => exact ⟨'\x7b', ['\x7d'], rfl, by decide, by decide⟩
    | cons p ps =>
      exact ⟨'\x7b', encPair p ++ encMembers ps ++ ['\x7d'], rfl, by decide, by decide⟩
  | num i =>
    by_cases hneg : i < 0
    · refine ⟨'-', natDigits i.natAbs, ?_, by decide, by decide⟩
      simp [encV, encInt, hneg]
    · obtain ⟨⟨d, ds, hd0, hdig, _⟩, _⟩ := natDigitsAux_spec i.toNat i.toNat le_rfl
      have hd : natDigits i.toNat = d :: ds := hd0
      refine ⟨d, ds, ?_, ?_, ?_⟩
      · simp [encV, encInt, hneg, hd]
      · have h1 : 48 ≤ d.toNat ∧ d.toNat ≤ 57 := by
          unfold isDigitC at hdig
          simpa using hdig
        unfold jsonWs
        have : ¬ d.toNat = 32 ∧ ¬ d.toNat = 9 ∧ ¬ d.toNat = 10 ∧ ¬ d.toNat = 13 := by omega
        simp [this.1, this.2.1, this.2.2.1, this.2.2.2]
      · apply ne_char_of_toNat
        have h1 : 48 ≤ d.toNat ∧ d.toNat ≤ 57 := by
          unfold isDigitC at hdig
          simpa using hdig
        have h2 : (']').toNat = 93 := rfl
        omega

mutual
/-- A value's structural size never exceeds its encoding's length. -/
theorem jsize_le_enc : ∀ v : Json, jsize v ≤ (encV v).length
  | .null => by simp [jsize, encV, lc]
  | .bool true => by simp [jsize, encV, lc]
  | .bool false => by simp [jsize, encV, lc]
  | .num i => by
    obtain ⟨⟨d2, ds2, hd2, _, _⟩, _⟩ := natDigitsAux_spec i.toNat i.toNat le_rfl
    simp only [jsize, encV, encInt]
    by_cases hneg : i < 0
    · simp [hneg]
    · simp only [hneg, if_false]
      rw [show natDigits i.toNat = d2 :: ds2 from hd2]
      simp
  | .str s => by simp [jsize, encV, encStr]
  | .arr [] => by simp [jsize, jsizeL, encV, lc]
  | .arr (x :: xs) => by
    have h1 := jsize_le_enc x
    have h2 := jsizeL_le_enc xs
    simp only [jsize, jsizeL, encV, List.length_cons, List.length_append]
    omega
  | .obj [] => by simp [jsize, jsizeKL, encV, lc]
  | .obj (p :: ps) => by
    have h1 := jsize_le_enc p.2
    have h2 := jsizeKL_le_enc ps
    have h3 : (encPair p).length = (escList p.1).length + 3 + (encV p.2).length := by
      cases p with
      | mk k v => simp [encPair, encStr]; omega
    simp only [jsize, jsizeKL, encV, List.length_cons, List.length_append, h3]
    omega
theorem jsizeL_le_enc : ∀ xs : List Json, jsizeL xs ≤ (encElems xs).length
  | [] => by simp [jsizeL, encElems]
  | x :: xs => by
    have h1 := jsize_le_enc x
    have h2 := jsizeL_le_enc xs
    simp only [jsizeL, encElems, List.length_cons, List.length_append]
    omega
theorem jsizeKL_le_enc : ∀ kvs : List (List Char × Json), jsizeKL kvs ≤ (encMembers kvs).length
  | [] => by simp [jsizeKL, encMembers]
  | p :: ps => by
    have h1 := jsize_le_enc p.2
    have h2 := jsizeKL_le_enc ps
    have h3 : (encPair p).length = (escList p.1).length + 3 + (encV p.2).length := by
      cases p with
      | mk k v => simp [encPair, encStr]; omega
    simp only [jsizeKL, encMembers, List.length_cons, List.length_append, h3]
    omega
end

/-- Every JSON value has positive size. -/
theorem jsize_pos (v : Json) : 1 ≤ jsize v := by
  cases v <;> simp only [jsize] <;> omega

/-- An encoded number starts with a minus sign or a digit. -/
theorem encNum_head (i : Int) : ∃ d ds, encV (Json.num i) = d :: ds
    ∧ (d.toNat = 45 ∨ (48 ≤ d.toNat ∧ d.toNat ≤ 57)) := by
  by_cases hneg : i < 0
  · exact ⟨'-', natDigits i.natAbs, by simp [encV, encInt, hneg], Or.inl rfl⟩
  · obtain ⟨⟨d, ds, hd0, hdig, _⟩, _⟩ := natDigitsAux_spec i.toNat i.toNat le_rfl
    have hd : natDigits i.toNat = d :: ds := hd0
    refine ⟨d, ds, by simp [encV, encInt, hneg, hd], Or.inr ?_⟩
    unfold isDigitC at hdig
    simpa using hdig

/-- `keyFresh` distributes over appended dictionaries. -/
theorem keyFresh_append (k : List Char) (l1 l2 : List (List Char × Json)) :
    keyFresh k (l1 ++ l2) = (keyFresh k l1 && keyFresh k l2) := by
  simp [keyFresh, List.all_append]

/-- One dispatch step of the value parser on an opening object brace. -/
theorem parseVal_step_obj (fuel : Nat) (cs : List Char) :
    parseVal (fuel + 1) ('\x7b' :: cs)
      = (match skipWs cs with
         | [] => none
         | c2 :: cs2 =>
           if c2 = '\x7d' then some (.obj [], cs2)
           else parseMembers fuel (c2 :: cs2) []) := rfl

/-- One dispatch step of the value parser on an opening array bracket. -/
theorem parseVal_step_arr (fuel : Nat) (cs : List Char) :
    parseVal (fuel + 1) ('[' :: cs)
      = (match skipWs cs with
         | [] => none
         | c2 :: cs2 =>
           if c2 = ']' then some (.arr [], cs2)
           else parseElems fuel (c2 :: cs2) []) := rfl

/-- One dispatch step of the value parser on an opening quote. -/
theorem parseVal_step_str (fuel : Nat) (cs : List Char) :
    parseVal (fuel + 1) ('"' :: cs)
      = (match parseStr cs with
         | some (s1, r) => some (.str s1, r)
         | none => none) := rfl

/-- One dispatch step of the value parser on a number head. -/
theorem parseVal_step_num (fuel : Nat) (d : Char) (cs : List Char)
    (hws : jsonWs d = false) (h1 : ¬ d = '\x7b') (h2 : ¬ d = '[') (h3 : ¬ d = '"')
    (h4 : ¬ d = 't') (h5 : ¬ d = 'f') (h6 : ¬ d = 'n') :
    parseVal (fuel + 1) (d :: cs) = parseNumFrom (d :: cs) := by
  unfold parseVal
  rw [skipWs_cons d _ hws]
  simp only [h1, h2, h3, h4, h5, h6, if_false]

/-- One step of the member loop on the opening quote of a key. -/
theorem parseMembers_step (fuel : Nat) (cs : List Char) (acc : List (List Char × Json)) :
    parseMembers (fuel + 1) ('"' :: cs) acc
      = (match parseStr cs with
         | some (k, r1) =>
           match skipWs r1 with
           | [] => none
           | c2 :: r2 =>
             if c2 = ':' then
               match parseVal fuel r2 with
               | some (v, r3) =>
                 match skipWs r3 with
                 | [] => none
                 | c3 :: r4 =>
                   if c3 = ',' then parseMembers fuel r4 (dictInsert acc k v)
                   else if c3 = '\x7d' then some (.obj (dictInsert acc k v), r4)
                   else none
               | none => none
             else none
         | none => none) := rfl

/-- One step of the element loop. -/
theorem parseElems_step (fuel : Nat) (s : List Char) (acc : List Json) :
    parseElems (fuel + 1) s acc
      = (match parseVal fuel s with
         | some (v, r1) =>
           match skipWs r1 with
           | [] => none
           | c :: r2 =>
             if c = ',' then parseElems fuel r2 (acc ++ [v])
             else if c = ']' then some (.arr (acc ++ [v]), r2)
             else none
         | none => none) := rfl

/-- Unfolding of `keyFresh` on a cons cell. -/
theorem keyFresh_cons (k : List Char) (p : List Char × Json)
    (l : List (List Char × Json)) :
    keyFresh k (p :: l) = true ↔ (¬ (p.1 = k)) ∧ keyFresh k l = true := by
  simp [keyFresh]

/-- Unfolding of `keysNodup` on a cons cell. -/
theorem keysNodup_cons (p : List Char × Json) (l : List (List Char × Json)) :
    keysNodup (p :: l) = true ↔ keyFresh p.1 l = true ∧ keysNodup l = true := by
  simp [keysNodup]

/-- Unfolding of `jwfKL` on a cons cell. -/
theorem jwfKL_cons (p : List Char × Json) (l : List (List Char × Json)) :
    jwfKL (p :: l) = true ↔ jwf p.2 = true ∧ jwfKL l = true := by
  simp [jwfKL]

/-- The round-trip induction: with fuel at least the value's size, the parser
    inverts the encoder at every boundary, for values whose objects carry
    duplicate-free keys; and likewise for the element and member loops. -/
theorem parse_enc : ∀ fuel : Nat,
    (∀ v rest, jwf v = true → jsize v ≤ fuel → Bnd rest →
      parseVal fuel (encV v ++ rest) = some (v, rest))
    ∧ (∀ x xs acc rest, jwfL (x :: xs) = true → jsizeL (x :: xs) ≤ fuel → Bnd rest →
      parseElems fuel (encV x ++ (encElems xs ++ (']' :: rest))) acc
        = some (.arr (acc ++ x :: xs), rest))
    ∧ (∀ k v kvs acc rest, jwf v = true → jwfKL kvs = true →
      keyFresh k kvs = true → keysNodup kvs = true →
      keyFresh k acc = true → (∀ p ∈ kvs, keyFresh p.1 acc = true) →
      1 + jsize v + jsizeKL kvs ≤ fuel → Bnd rest →
      parseMembers fuel
          (encStr k ++ (':' :: (encV v ++ (encMembers kvs ++ ('\x7d' :: rest))))) acc
        = some (.obj (acc ++ (k, v) :: kvs), rest)) := by
  intro fuel
  induction fuel with
  | zero =>
    refine ⟨?_, ?_, ?_⟩
    · intro v rest _ hsz _
      have := jsize_pos v
      omega
    · intro x xs acc rest _ hsz _
      simp only [jsizeL] at hsz
      omega
    · intro k v kvs acc rest _ _ _ _ _ _ hsz _
      omega
  | succ fuel ih =>
    obtain ⟨ihV, ihE, ihM⟩ := ih
    refine ⟨?_, ?_, ?_⟩
    · intro v rest hwf hsz hrest
      cases v with
      | null => rfl
      | bool b =>
        cases b with
        | true => rfl
        | false => rfl
      | num i =>
        obtain ⟨d, ds, hd, hdn⟩ := encNum_head i
        have hws : jsonWs d = false := by
          unfold jsonWs
          simp only [Bool.or_eq_false_iff, decide_eq_false_iff_not]
          omega
        have hb1 : ¬ (d = '\x7b') := ne_char_of_toNat (by
          have : ('\x7b').toNat = 123 := rfl
          omega)
        have hb2 : ¬ (d = '[') := ne_char_of_toNat (by
          have : ('[').toNat = 91 := rfl
          omega)
        have hb3 : ¬ (d = '"') := ne_char_of_toNat (by
          have : ('"').toNat = 34 := rfl
          omega)
        have hb4 : ¬ (d = 't') := ne_char_of_toNat (by
          have : ('t').toNat = 116 := rfl
          omega)
        have hb5 : ¬ (d = 'f') := ne_char_of_toNat (by
          have : ('f').toNat = 102 := rfl
          omega)
        have hb6 : ¬ (d = 'n') := ne_char_of_toNat (by
          have : ('n').toNat = 110 := rfl
          omega)
        rw [hd, List.cons_append]
        rw [parseVal_step_num fuel d _ hws hb1 hb2 hb3 hb4 hb5 hb6]
        rw [← List.cons_append, ← hd]
        exact parseNumFrom_encInt i rest hrest
      | str s =>
        rw [show encV (Json.str s) ++ rest = '"' :: ((escList s ++ ['"']) ++ rest)
          from rfl]
        rw [parseVal_step_str]
        rw [show (escList s ++ ['"']) ++ rest = escList s ++ ('"' :: rest) by simp]
        rw [parseStr_esc s rest]
      | arr xs =>
        cases xs with
        | nil => rfl
        | cons x xs =>
          obtain ⟨c2, cs2, hx, hxws, hxne⟩ := encV_head x
          have hwf2 : jwfL (x :: xs) = true := by
            simpa [jwf] using hwf
          have hsz2 : jsizeL (x :: xs) ≤ fuel := by
            simp only [jsize] at hsz
            omega
          rw [show encV (Json.arr (x :: xs)) ++ rest
              = '[' :: ((encV x ++ encElems xs ++ [']']) ++ rest) from rfl]
          rw [parseVal_step_arr]
          rw [show (encV x ++ encElems xs ++ [']']) ++ rest
              = encV x ++ (encElems xs ++ (']' :: rest)) by simp]
          rw [hx, List.cons_append, skipWs_cons c2 _ hxws]
          simp only [hxne, if_false]
          rw [← List.cons_append, ← hx]
          rw [ihE x xs [] rest hwf2 hsz2 hrest]
          simp
      | obj kvs =>
        cases kvs with
        | nil => rfl
        | cons p ps =>
          cases p with
          | mk k v =>
            simp only [jwf, keysNodup, jwfKL, Bool.and_eq_true] at hwf
            obtain ⟨⟨hkf, hnd⟩, hv, hkl⟩ := hwf
            have hszm : 1 + jsize v + jsizeKL ps ≤ fuel := by
              simp only [jsize, jsizeKL] at hsz
              omega
            rw [show encV (Json.obj ((k, v) :: ps)) ++ rest
                = '\x7b' :: ((encPair (k, v) ++ encMembers ps ++ ['\x7d']) ++ rest)
              from rfl]
            rw [parseVal_step_obj]
            rw [show (encPair (k, v) ++ encMembers ps ++ ['\x7d']) ++ rest
                = '"' :: (escList k ++ ('"' :: (':'
                    :: (encV v ++ (encMembers ps ++ ('\x7d' :: rest)))))) by
              simp [encPair, encStr]]
            rw [skipWs_cons '"' _ (by decide)]
            simp only [(by decide : ¬ (('"' : Char) = '\x7d')), if_false]
            rw [show '"' :: (escList k ++ ('"' :: (':'
                :: (encV v ++ (encMembers ps ++ ('\x7d' :: rest))))))
                = encStr k ++ (':' :: (encV v ++ (encMembers ps ++ ('\x7d' :: rest)))) by
              simp [encStr]]
            rw [ihM k v ps [] rest hv hkl hkf hnd rfl (fun p _ => rfl) hszm hrest]
            simp
    · intro x xs acc rest hwf hsz hrest
      have hwfx : jwf x = true := by
        simp only [jwfL, Bool.and_eq_true] at hwf
        exact hwf.1
      have hwfxs : jwfL xs = true := by
        simp only [jwfL, Bool.and_eq_true] at hwf
        exact hwf.2
      have hszx : jsize x ≤ fuel := by
        simp only [jsizeL] at hsz
        omega
      have hbT : Bnd (encElems xs ++ (']' :: rest)) := by
        cases xs with
        | nil => exact Or.inr ⟨']', rest, rfl, Or.inr (Or.inl rfl)⟩
        | cons y ys =>
          exact Or.inr ⟨',', encV y ++ (encElems ys ++ (']' :: rest)),
            by simp [encElems], Or.inl rfl⟩
      rw [parseElems_step]
      rw [ihV x (encElems xs ++ (']' :: rest)) hwfx hszx hbT]
      simp only []
      cases xs with
      | nil =>
        rw [show encElems ([] : List Json) ++ (']' :: rest) = ']' :: rest from rfl]
        rw [skipWs_cons ']' _ (by decide)]
        simp only [(by decide : ¬ ((']' : Char) = ',')), if_false]
        simp
      | cons y ys =>
        rw [show encElems (y :: ys) ++ (']' :: rest)
            = ',' :: (encV y ++ (encElems ys ++ (']' :: rest))) by
          simp [encElems]]
        rw [skipWs_cons ',' _ (by decide)]
        simp only []
        simp only [if_true]
        have hsz2 : jsizeL (y :: ys) ≤ fuel := by
          simp only [jsizeL] at hsz ⊢
          omega
        rw [ihE y ys (acc ++ [x]) rest hwfxs hsz2 hrest]
        simp
    · intro k v kvs acc rest hv hkl hkf hnd hfacc hfall hsz hrest
      have hbT : Bnd (encMembers kvs ++ ('\x7d' :: rest)) := by
        cases kvs with
        | nil => exact Or.inr ⟨'\x7d', rest, rfl, Or.inr (Or.inr rfl)⟩
        | cons q qs =>
          exact Or.inr ⟨',', encPair q ++ (encMembers qs ++ ('\x7d' :: rest)),
            by simp [encMembers], Or.inl rfl⟩
      have hszv : jsize v ≤ fuel := by omega
      rw [show encStr k ++ (':' :: (encV v ++ (encMembers kvs ++ ('\x7d' :: rest))))
          = '"' :: (escList k ++ ('"' :: (':'
              :: (encV v ++ (encMembers kvs ++ ('\x7d' :: rest)))))) by
        simp [encStr]]
      rw [parseMembers_step]
      rw [parseStr_esc k (':' :: (encV v ++ (encMembers kvs ++ ('\x7d' :: rest))))]
      simp only []
      rw [skipWs_cons ':' _ (by decide)]
      simp only []
      simp only [if_true]
      rw [ihV v (encMembers kvs ++ ('\x7d' :: rest)) hv hszv hbT]
      simp only []
      rw [dictInsert_fresh acc k v hfacc]
      cases kvs with
      | nil =>
        rw [show encMembers ([] : List (List Char × Json)) ++ ('\x7d' :: rest)
            = '\x7d' :: rest from rfl]
        rw [skipWs_cons '\x7d' _ (by decide)]
        simp only [(by decide : ¬ (('\x7d' : Char) = ',')), if_false]
        simp
      | cons q qs =>
        cases q with
        | mk k2 v2 =>
          rw [show encMembers ((k2, v2) :: qs) ++ ('\x7d' :: rest)
              = ',' :: (encStr k2 ++ (':'
                  :: (encV v2 ++ (encMembers qs ++ ('\x7d' :: rest))))) by
            simp [encMembers, encPair]]
          rw [skipWs_cons ',' _ (by decide)]
          simp only []
          simp only [if_true]
          obtain ⟨hne12, hkfq⟩ := (keyFresh_cons k (k2, v2) qs).mp hkf
          obtain ⟨hfk2qs, hndq⟩ := (keysNodup_cons (k2, v2) qs).mp hnd
          obtain ⟨hv2, hklq⟩ := (jwfKL_cons (k2, v2) qs).mp hkl
          have hfk2acc : keyFresh k2 (acc ++ [(k, v)]) = true := by
            rw [keyFresh_append]
            have h1 : keyFresh k2 acc = true := hfall (k2, v2) (by simp)
            have h2 : keyFresh k2 [(k, v)] = true := by
              simp only [keyFresh, List.all_cons, List.all_nil, Bool.and_true,
                Bool.not_eq_true', decide_eq_false_iff_not]
              exact fun he => hne12 he.symm
            rw [h1, h2]
            rfl
          have hfallq : ∀ p ∈ qs, keyFresh p.1 (acc ++ [(k, v)]) = true := by
            intro p hp
            rw [keyFresh_append]
            have h1 : keyFresh p.1 acc = true := hfall p (by simp [hp])
            have h2 : keyFresh p.1 [(k, v)] = true := by
              unfold keyFresh at hkfq
              rw [List.all_eq_true] at hkfq
              have h3 := hkfq p hp
              simp only [Bool.not_eq_true', decide_eq_false_iff_not] at h3
              simp only [keyFresh, List.all_cons, List.all_nil, Bool.and_true,
                Bool.not_eq_true', decide_eq_false_iff_not]
              exact fun he => h3 he.symm
            rw [h1, h2]
            rfl
          have hszq : 1 + jsize v2 + jsizeKL qs ≤ fuel := by
            simp only [jsizeKL] at hsz
            have hvp := jsize_pos v
            omega
          rw [ihM k2 v2 qs (acc ++ [(k, v)]) rest hv2 hklq hfk2qs hndq
            hfk2acc hfallq hszq hrest]
          simp

/-- Top-level round trip: `json_loads` inverts the single-line encoder on any
    value whose objects have duplicate-free keys. -/
theorem json_loads_enc (v : Json) (hwf : jwf v = true) :
    json_loads (encV v) = some v := by
  unfold json_loads
  have hfuel : jsize v ≤ (encV v).length + 1 := by
    have := jsize_le_enc v
    omega
  have h := (parse_enc ((encV v).length + 1)).1 v [] hwf hfuel (Or.inl rfl)
  rw [List.append_nil] at h
  rw [h]
  rfl

/-- `hexDig` emits characters with code point at least 32. -/
theorem hexDig_ge32 : ∀ n, n < 16 → 32 ≤ (hexDig n).toNat := by decide

mutual
/-- Every character the encoder emits has code point at least 32 (all control
    characters inside strings are escaped). -/
theorem encV_ge32 : ∀ v : Json, ∀ c ∈ encV v, 32 ≤ c.toNat
  | .null => by decide
  | .bool true => by decide
  | .bool false => by decide
  | .num i => by
    intro c hc
    simp only [encV, encInt] at hc
    by_cases hneg : i < 0
    · simp only [hneg, if_true] at hc
      rcases List.mem_cons.mp hc with h | h
      · subst h; decide
      · have := (natDigitsAux_spec i.natAbs i.natAbs le_rfl).2 c h
        unfold isDigitC at this
        simp only [Bool.and_eq_true, decide_eq_true_eq] at this
        omega
    · simp only [hneg, if_false] at hc
      have := (natDigitsAux_spec i.toNat i.toNat le_rfl).2 c hc
      unfold isDigitC at this
      simp only [Bool.and_eq_true, decide_eq_true_eq] at this
      omega
  | .str s => by
    intro c hc
    simp only [encV, encStr] at hc
    rcases List.mem_cons.mp hc with h | h
    · subst h; decide
    · rcases List.mem_append.mp h with h2 | h2
      · exact escList_ge32 s c h2
      · have : c = '"' := by simpa using h2
        subst this; decide
  | .arr [] => by decide
  | .arr (x :: xs) => by
    intro c hc
    simp only [encV] at hc
    rcases List.mem_cons.mp hc with h | h
    · subst h; decide
    · rcases List.mem_append.mp h with h2 | h2
      · rcases List.mem_append.mp h2 with h3 | h3
        · exact encV_ge32 x c h3
        · exact encElems_ge32 xs c h3
      · have : c = ']' := by simpa using h2
        subst this; decide
  | .obj [] => by decide
  | .obj (p :: ps) => by
    intro c hc
    simp only [encV] at hc
    rcases List.mem_cons.mp hc with h | h
    · subst h; decide
    · rcases List.mem_append.mp h with h2 | h2
      · rcases List.mem_append.mp h2 with h3 | h3
        · exact encPair_ge32 p c h3
        · exact encMembers_ge32 ps c h3
      · have : c = '\x7d' := by simpa using h2
        subst this; decide
theorem escList_ge32 : ∀ s : List Char, ∀ c ∈ escList s, 32 ≤ c.toNat
  | [] => by decide
  | a :: as => by
    intro c hc
    simp only [escList] at hc
    rcases List.mem_append.mp hc with h | h
    · unfold escChar at h
      split at h
      · rcases (by simpa using h : c = '\\' ∨ c = '"') with h2 | h2 <;>
          (subst h2; decide)
      · split at h
        · rcases (by simpa using h : c = '\\' ∨ c = '\\') with h2 | h2 <;>
            (subst h2; decide)
        · split at h
          · rcases (by simpa using h : c = '\\' ∨ c = 'n') with h2 | h2 <;>
              (subst h2; decide)
          · split at h
            · rcases (by simpa using h : c = '\\' ∨ c = 't') with h2 | h2 <;>
                (subst h2; decide)
            · split at h
              · rcases (by simpa using h : c = '\\' ∨ c = 'r') with h2 | h2 <;>
                  (subst h2; decide)
              · split at h
                · rcases (by simpa using h : c = '\\' ∨ c = 'b') with h2 | h2 <;>
                    (subst h2; decide)
                · split at h
                  · rcases (by simpa using h : c = '\\' ∨ c = 'f') with h2 | h2 <;>
                      (subst h2; decide)
                  · split at h
                    · rcases (by simpa using h :
                          c = '\\' ∨ c = 'u' ∨ c = '0' ∨ c = '0'
                            ∨ c = hexDig (a.toNat / 16) ∨ c = hexDig (a.toNat % 16))
                        with h2 | h2 | h2 | h2 | h2 | h2
                      · subst h2; decide
                      · subst h2; decide
                      · subst h2; decide
                      · subst h2; decide
                      · subst h2
                        have : a.toNat / 16 < 16 := by omega
                        have hh := hexDig_ge32 _ this
                        omega
                      · subst h2
                        have : a.toNat % 16 < 16 := by omega
                        have hh := hexDig_ge32 _ this
                        omega
                    · have : c = a := by simpa using h
                      subst this
                      omega
    · exact escList_ge32 as c h
theorem encElems_ge32 : ∀ xs : List Json, ∀ c ∈ encElems xs, 32 ≤ c.toNat
  | [] => by decide
  | x :: xs => by
    intro c hc
    simp only [encElems] at hc
    rcases List.mem_cons.mp hc with h | h
    · subst h; decide
    · rcases List.mem_append.mp h with h2 | h2
      · exact encV_ge32 x c h2
      · exact encElems_ge32 xs c h2
theorem encPair_ge32 : ∀ p : List Char × Json, ∀ c ∈ encPair p, 32 ≤ c.toNat
  | (k, v) => by
    intro c hc
    simp only [encPair, encStr] at hc
    rcases List.mem_append.mp hc with h | h
    · rcases List.mem_cons.mp h with h2 | h2
      · subst h2; decide
      · rcases List.mem_append.mp h2 with h3 | h3
        · exact escList_ge32 k c h3
        · have : c = '"' := by simpa using h3
          subst this; decide
    · rcases List.mem_cons.mp h with h2 | h2
      · subst h2; decide
      · exact encV_ge32 v c h2
theorem encMembers_ge32 : ∀ ps : List (List Char × Json), ∀ c ∈ encMembers ps, 32 ≤ c.toNat
  | [] => by decide
  | p :: ps => by
    intro c hc
    simp only [encMembers] at hc
    rcases List.mem_cons.mp hc with h | h
    · subst h; decide
    · rcases List.mem_append.mp h with h2 | h2
      · exact encPair_ge32 p c h2
      · exact encMembers_ge32 ps c h2
end

/-! ### Claim C2: the parser round-trips the wire format -/

/-- The encoding of an object is brace-wrapped. -/
theorem encObj_shape (a : List (List Char × Json)) :
    ∃ mid, encV (Json.obj a) = '\x7b' :: (mid ++ ['\x7d']) := by
  cases a with
  | nil => exact ⟨[], rfl⟩
  | cons p ps =>
    exact ⟨encPair p ++ encMembers ps, by simp [encV]⟩

/-- A tool name is nonempty and made of name characters. -/
theorem toolName_chars (n : List Char) (h : isToolName n = true) :
    n ≠ [] ∧ ∀ x ∈ n, isNameChar x = true := by
  cases n with
  | nil => exact absurd h (by decide)
  | cons c cs =>
    unfold isToolName at h
    simp only [Bool.and_eq_true] at h
    refine ⟨by simp, ?_⟩
    intro x hx
    rcases List.mem_cons.mp hx with h1 | h1
    · subst h1
      unfold isNameChar
      simp [h.1]
    · exact (List.all_eq_true.mp h.2) x h1

/-- Code-point bounds of a name character. -/
theorem nameChar_bounds (x : Char) (h : isNameChar x = true) :
    48 ≤ x.toNat ∧ x.toNat ≤ 122 := by
  unfold isNameChar isNameStart isDigitC at h
  simp only [Bool.or_eq_true, Bool.and_eq_true, decide_eq_true_eq] at h
  omega

/-- Characters with code point at least 48 are not Python whitespace. -/
theorem pyIsSpace_false_of_ge33 (x : Char) (h : 33 ≤ x.toNat) : pyIsSpace x = false := by
  unfold pyIsSpace
  simp only [Bool.or_eq_false_iff, decide_eq_false_iff_not]
  omega

/-- A marker occurring anywhere in a string is found by `containsSub`. -/
theorem containsSub_of_append (l : List Char) (a : Char) (m r : List Char) :
    containsSub (a :: m) (l ++ ((a :: m) ++ r)) = true := by
  induction l with
  | nil => simpa using containsSub_append a m r
  | cons c l ih =>
    have hstep : containsSub (a :: m) ((c :: l) ++ ((a :: m) ++ r))
        = (isPrefx (a :: m) ((c :: l) ++ ((a :: m) ++ r))
            || containsSub (a :: m) (l ++ ((a :: m) ++ r))) := rfl
    rw [hstep, ih]
    simp

/-- `takeWhile` keeps a list whose every element passes the predicate. -/
theorem takeWhile_all (p : Char → Bool) (l : List Char) (h : ∀ x ∈ l, p x = true) :
    l.takeWhile p = l := by
  have := takeWhile_all_true p l [] h
  simpa using this

/-- Claim C2 (the spec's parser round trip): for every tool name matching
    `[A-Za-z_][A-Za-z0-9_]*` and every JSON object (with its mapping's keys
    necessarily duplicate-free), parsing
    `"TOOL_CALL: " + n + " " + jsonEncode(a)` yields the invocation `(n, a)`. -/
theorem claim_C2 (n : List Char) (a : List (List Char × Json))
    (hn : isToolName n = true) (hwf : jwf (Json.obj a) = true) :
    parse_tool_call (lc "TOOL_CALL: " ++ (n ++ (' ' :: jsonEncode (Json.obj a))))
      = some (n, Json.obj a) := by
  obtain ⟨mid, hobj⟩ := encObj_shape a
  obtain ⟨hne, hchars⟩ := toolName_chars n hn
  have hnws : ∀ x ∈ n, pyIsSpace x = false := by
    intro x hx
    exact pyIsSpace_false_of_ge33 x (by have := nameChar_bounds x (hchars x hx); omega)
  have hnnl : ∀ x ∈ n, (fun c => !(c = '\n')) x = true := by
    intro x hx
    have := nameChar_bounds x (hchars x hx)
    simp only [Bool.not_eq_true', decide_eq_false_iff_not]
    exact ne_char_of_toNat (by have h10 : ('\n').toNat = 10 := rfl; omega)
  have hnbr : ∀ x ∈ n, (fun c => !(c = '\x7b')) x = true := by
    intro x hx
    have := nameChar_bounds x (hchars x hx)
    simp only [Bool.not_eq_true', decide_eq_false_iff_not]
    exact ne_char_of_toNat (by have h123 : ('\x7b').toNat = 123 := rfl; omega)
  have hin : lc "TOOL_CALL: " ++ (n ++ (' ' :: jsonEncode (Json.obj a)))
      = TOOLCALL ++ (' ' :: (n ++ (' ' :: encV (Json.obj a)))) := by
    rw [show lc "TOOL_CALL: " = TOOLCALL ++ [' '] from rfl]
    simp [jsonEncode]
  rw [hin]
  have hm : containsSub TOOLCALL
      (TOOLCALL ++ (' ' :: (n ++ (' ' :: encV (Json.obj a))))) = true := by
    rw [show TOOLCALL = 'T' :: lc "OOL_CALL:" from rfl]
    exact containsSub_append 'T' (lc "OOL_CALL:") _
  rw [parse_eq_lineToolCall _ hm, afterFirst_append]
  obtain ⟨c0, n', hn'⟩ : ∃ c0 n', n = c0 :: n' := by
    cases n with
    | nil => exact absurd rfl hne
    | cons c0 n' => exact ⟨c0, n', rfl⟩
  have hc0 : pyIsSpace c0 = false := hnws c0 (by rw [hn']; simp)
  have hline : pyStrip (n ++ (' ' :: encV (Json.obj a)))
      = n ++ (' ' :: encV (Json.obj a)) := by
    rw [hobj, hn']
    have hshape : (c0 :: n') ++ (' ' :: ('\x7b' :: (mid ++ ['\x7d'])))
        = c0 :: ((n' ++ (' ' :: ('\x7b' :: mid))) ++ ['\x7d']) := by
      simp
    rw [hshape]
    rw [pyStrip_core c0 '\x7d' _ hc0 (by decide)]
  have hstrip1 : pyStrip (' ' :: (n ++ (' ' :: encV (Json.obj a))))
      = n ++ (' ' :: encV (Json.obj a)) := by
    rw [pyStrip_cons_ws ' ' _ (by decide)]
    exact hline
  rw [hstrip1]
  have hfl : firstLine (n ++ (' ' :: encV (Json.obj a)))
      = n ++ (' ' :: encV (Json.obj a)) := by
    unfold firstLine
    apply takeWhile_all
    intro x hx
    rcases List.mem_append.mp hx with h1 | h1
    · exact hnnl x h1
    · rcases List.mem_cons.mp h1 with h2 | h2
      · subst h2; decide
      · have h32 := encV_ge32 (Json.obj a) x h2
        simp only [Bool.not_eq_true', decide_eq_false_iff_not]
        exact ne_char_of_toNat (by have h10 : ('\n').toNat = 10 := rfl; omega)
  rw [hfl, hline]
  unfold lineToolCall
  have hbrace : containsSub ['\x7b'] (n ++ (' ' :: encV (Json.obj a))) = true := by
    rw [hobj]
    rw [show n ++ (' ' :: ('\x7b' :: (mid ++ ['\x7d'])))
        = (n ++ [' ']) ++ (['\x7b'] ++ (mid ++ ['\x7d'])) by simp]
    exact containsSub_of_append (n ++ [' ']) '\x7b' [] (mid ++ ['\x7d'])
  rw [hbrace]
  simp only [if_true]
  have hallpre : ∀ x ∈ n ++ [' '], (fun c => !(c = '\x7b')) x = true := by
    intro x hx
    rcases List.mem_append.mp hx with h1 | h1
    · exact hnbr x h1
    · have : x = ' ' := by simpa using h1
      subst this; decide
  have htk : (n ++ (' ' :: encV (Json.obj a))).takeWhile (fun c => !(c = '\x7b'))
      = n ++ [' '] := by
    rw [hobj]
    rw [show n ++ (' ' :: ('\x7b' :: (mid ++ ['\x7d'])))
        = (n ++ [' ']) ++ ('\x7b' :: (mid ++ ['\x7d'])) by simp]
    rw [takeWhile_all_true _ (n ++ [' ']) _ hallpre]
    simp [List.takeWhile_cons]
  have hdw : (n ++ (' ' :: encV (Json.obj a))).dropWhile (fun c => !(c = '\x7b'))
      = '\x7b' :: (mid ++ ['\x7d']) := by
    rw [hobj]
    rw [show n ++ (' ' :: ('\x7b' :: (mid ++ ['\x7d'])))
        = (n ++ [' ']) ++ ('\x7b' :: (mid ++ ['\x7d'])) by simp]
    rw [dropWhile_all_true _ (n ++ [' ']) _ hallpre]
    simp [List.dropWhile_cons]
  rw [htk, hdw]
  have hname : pyStrip (n ++ [' ']) = n :=
    pyStrip_append_ws n [' '] hne hnws (by intro x hx; simp at hx; subst hx; decide)
  rw [hname]
  rw [show ('\x7b' :: (mid ++ ['\x7d'])).drop 1 = mid ++ ['\x7d'] from rfl]
  rw [show ('\x7b' :: (mid ++ ['\x7d'])) = encV (Json.obj a) from hobj.symm]
  rw [json_loads_enc (Json.obj a) hwf]

/-- Witness for C2 at the spec's compliance-check example. -/
theorem claim_C2_witness :
    parse_tool_call (lc "TOOL_CALL: " ++ (lc "check_resource_compliance"
        ++ (' ' :: jsonEncode (Json.obj
          [(lc "resourceType", Json.str (lc "storage")),
           (lc "standard", Json.str (lc "SOC2"))]))))
      = some (lc "check_resource_compliance", Json.obj
          [(lc "resourceType", Json.str (lc "storage")),
           (lc "standard", Json.str (lc "SOC2"))]) :=
  claim_C2 (lc "check_resource_compliance")
    [(lc "resourceType", Json.str (lc "storage")),
     (lc "standard", Json.str (lc "SOC2"))]
    (by decide) (by decide)
